import Mathlib

/-!
# optixsim: a verification development for `optix.cc`

The program is a 2D particle simulator.  This file embeds

* the vector helpers `magnitude`, `magnitude2`, `normalize`, `normalize2`, `Copy`;
* the scene codec `Save` / `Load` (a raw dump of the in-memory records);
* the two phases of `Simulate`: the load-time speed normalisation and the
  per-frame step of one particle (position update, drift, reflections).

The numeric code is written once, over an arbitrary carrier `R` for `float`
that only has the operations the program uses (`+ - * /`, `==`, `>`, the
literals `0 1 2 60`).  The functions of `<cmath>` and of raylib that the
program calls are not part of the repository: they are parameters (`Libm`,
`CheckCollisionCircleLine`, the conversion to `int` at `SetTargetFPS`).

Two carriers are used.  `F32` is IEEE 754 binary32, the `float` of the program:
statements about what the program does are made for every carrier or on `F32`.
The real numbers with `exact` are arithmetic without rounding: statements that
take arithmetic as exact are made there.
-/

namespace Optix

/-! ## Data model (optix.cc, lines 9-18 and 37-42; `Vector2`, `Vector3`, `Color` are raylib's) -/

/-- raylib `Vector2`: two floats. -/
structure Vector2 (R : Type) where
  x : R
  y : R
deriving DecidableEq, Repr

/-- raylib `Vector3`: three floats. -/
structure Vector3 (R : Type) where
  x : R
  y : R
  z : R
deriving DecidableEq, Repr

/-- One octet of a file or of memory. -/
abbrev Byte := Fin 256

/-- raylib `Color`: four `unsigned char` channels. -/
structure Color where
  r : Byte
  g : Byte
  b : Byte
  a : Byte
deriving DecidableEq, Repr

/-- `struct Particle` (lines 9-14). -/
structure Particle (R : Type) where
  position : Vector2 R
  velocity : Vector3 R
  color : Color
  mass : R
  r : R
deriving DecidableEq, Repr

/-- `struct Surface` (lines 16-18). -/
structure Surface (R : Type) where
  p1 : Vector2 R
  p2 : Vector2 R
deriving DecidableEq, Repr

/-- `struct Scene` (lines 37-42); `std::vector` is a list. -/
structure Scene (R : Type) where
  bouncyBorders : Bool
  defaultVel : Vector2 R
  particles : List (Particle R)
  surfaces : List (Surface R)
deriving DecidableEq, Repr

/-- The `<cmath>` functions the program calls; they are not defined in the repository. -/
structure Libm (R : Type) where
  sqrt : R → R
  atan2f : R → R → R
  cosf : R → R
  sinf : R → R

/-! ## Vector math (lines 22-35) -/

section VectorMath

variable {R : Type} [Zero R] [Add R] [Mul R] [Div R] [BEq R]

/-- Line 22: `magnitude`. -/
def magnitude (L : Libm R) (v : Vector2 R) : R :=
  L.sqrt (v.x * v.x + v.y * v.y)

/-- Line 23: `magnitude2`; the `z` component does not enter. -/
def magnitude2 (L : Libm R) (v : Vector3 R) : R :=
  L.sqrt (v.x * v.x + v.y * v.y)

/-- Lines 25-29: `normalize`. -/
def normalize (L : Libm R) (v : Vector2 R) : Vector2 R :=
  let mag := magnitude L v
  if mag == 0 then ⟨0, 0⟩
  else ⟨v.x / mag, v.y / mag⟩

/-- Lines 31-35: `normalize2`. -/
def normalize2 (L : Libm R) (v : Vector3 R) : Vector3 R :=
  let mag := magnitude2 L v
  if mag == 0 then ⟨0, 0, 0⟩
  else ⟨v.x / mag, v.y / mag, v.z⟩

/-- Lines 85-88: `Copy` overwrites `x` and `y` of `dst` and keeps its `z`. -/
def Copy (dst : Vector3 R) (src : Vector2 R) : Vector3 R :=
  { dst with x := src.x, y := src.y }

end VectorMath

/-- Exact real arithmetic for `<cmath>`: `atan2f y x` is the argument of `x + iy`
in `(-π, π]`, with `atan2f 0 0 = 0`. There is no rounding, underflow, overflow,
NaN or infinity here: `exact` serves the statements that take arithmetic as
exact, and `F32` below is `float` as the program has it. -/
noncomputable def exact : Libm ℝ where
  sqrt := Real.sqrt
  atan2f := fun y x => Complex.arg ⟨x, y⟩
  cosf := Real.cos
  sinf := Real.sin


/-! ## Simulation (lines 90-140)

`Simulate` first normalises the velocities and speeds (lines 94-104) and then
runs frames until the window is closed; a frame steps every particle once
(lines 111-132).  raylib's `CheckCollisionCircleLine` is a parameter. -/

section Simulation

variable {R : Type} [Zero R] [One R] [OfNat R 2] [OfNat R 60]
  [Add R] [Sub R] [Mul R] [Div R] [BEq R] [LT R] [DecidableRel (fun a b : R => a < b)]

/-- Lines 95-98: the first loop of `Simulate`, from the running value of `max`:
each velocity is replaced by its `normalize2`, and `max` follows the `z` of the
normalised velocity. -/
def normalizeLoop (L : Libm R) : List (Particle R) → R → List (Particle R) × R
  | [], max => ([], max)
  | p :: ps, max =>
    let velocity := normalize2 L p.velocity
    let max := if velocity.z > max then velocity.z else max
    let rest := normalizeLoop L ps max
    ({ p with velocity := velocity } :: rest.1, rest.2)

/-- Lines 102-104: `particle.velocity.z /= max` for every particle. -/
def divideSpeeds (max : R) (particles : List (Particle R)) : List (Particle R) :=
  particles.map fun particle =>
    { particle with velocity := { particle.velocity with z := particle.velocity.z / max } }

/-- What the start of `Simulate` leaves behind: the working copy of the
particles and the value of `max`. -/
structure Loaded (R : Type) where
  particles : List (Particle R)
  max : R

/-- Lines 93-98 and 102-104: `max` starts at 1, the first loop runs, and the
speeds are divided by `max`. -/
def loadNormalize (L : Libm R) (scene : Scene R) : Loaded R :=
  let looped := normalizeLoop L scene.particles 1
  let max := looped.2
  { particles := divideSpeeds max looped.1, max := max }

/-- Lines 112-114: `pos += velocity.xy * velocity.z`. -/
def advance (p : Particle R) : Particle R :=
  { p with position := ⟨p.position.x + p.velocity.x * p.velocity.z,
                        p.position.y + p.velocity.y * p.velocity.z⟩ }

/-- Lines 116-119: the heading becomes `normalize (heading + defaultVel)`. -/
def applyDrift (L : Libm R) (defaultVel : Vector2 R) (p : Particle R) : Particle R :=
  let moved := normalize L ⟨p.velocity.x + defaultVel.x, p.velocity.y + defaultVel.y⟩
  { p with velocity := Copy p.velocity moved }

/-- Lines 123-129: the velocity after a hit on `surface`. -/
def reflected (L : Libm R) (velocity : Vector3 R) (surface : Surface R) : Vector3 R :=
  let Line := normalize L ⟨surface.p2.x - surface.p1.x, surface.p2.y - surface.p1.y⟩
  let Part := normalize L ⟨velocity.x, velocity.y⟩
  let LineAngle := L.atan2f Line.y Line.x
  let PartAngle := L.atan2f Part.y Part.x
  let OtherAngle := 2 * LineAngle - PartAngle
  Copy velocity (normalize L ⟨L.cosf OtherAngle, L.sinf OtherAngle⟩)

/-- Lines 121-131: the body of the loop over the surfaces. -/
def collide (L : Libm R) (CheckCollisionCircleLine : Vector2 R → R → Vector2 R → Vector2 R → Bool)
    (p : Particle R) (surface : Surface R) : Particle R :=
  if CheckCollisionCircleLine p.position p.r surface.p1 surface.p2 then
    { p with velocity := reflected L p.velocity surface }
  else p

/-- Lines 111-132, for one particle: position update, drift, then every surface
in order. The drift added is `scene.defaultVel` as stored (line 117);
`actualDefault` of line 91 is not used by the program. -/
def stepParticle (L : Libm R)
    (CheckCollisionCircleLine : Vector2 R → R → Vector2 R → Vector2 R → Bool)
    (defaultVel : Vector2 R) (surfaces : List (Surface R)) (p : Particle R) : Particle R :=
  surfaces.foldl (collide L CheckCollisionCircleLine) (applyDrift L defaultVel (advance p))

/-- Lines 111-132: one frame steps every particle. -/
def frame (L : Libm R)
    (CheckCollisionCircleLine : Vector2 R → R → Vector2 R → Vector2 R → Bool)
    (scene : Scene R) (particles : List (Particle R)) : List (Particle R) :=
  particles.map (stepParticle L CheckCollisionCircleLine scene.defaultVel scene.surfaces)

/-- Lines 90-140: `Simulate`, as the particles after `n` turns of the loop of
line 107 (the loop runs until raylib's `WindowShouldClose`). -/
def Simulate (L : Libm R)
    (CheckCollisionCircleLine : Vector2 R → R → Vector2 R → Vector2 R → Bool)
    (scene : Scene R) : Nat → List (Particle R)
  | 0 => (loadNormalize L scene).particles
  | n + 1 => frame L CheckCollisionCircleLine scene (Simulate L CheckCollisionCircleLine scene n)

end Simulation

/-- The heading of a particle: `x` and `y` of its velocity. -/
def heading {R : Type} (p : Particle R) : Vector2 R := ⟨p.velocity.x, p.velocity.y⟩

/-- The larger of 1 and the largest speed `z` stored in a list of particles
(the words of the specification for the value of `max`). -/
def peakSpeed {R : Type} [One R] [Max R] (particles : List (Particle R)) : R :=
  particles.foldr (fun p m => max p.velocity.z m) 1

/-- Whether the stored heading of a particle is other than `(0,0)`. -/
def hasHeading {R : Type} [Zero R] [DecidableEq R] (p : Particle R) : Bool :=
  decide (p.velocity.x ≠ 0 ∨ p.velocity.y ≠ 0)

/-- Whether the guard of `normalize2` (line 33) lets the velocity of a particle
through: `magnitude2`, as computed, does not compare equal to 0. -/
def counted {R : Type} [Zero R] [Add R] [Mul R] [BEq R] (L : Libm R) (p : Particle R) : Bool :=
  !(magnitude2 L p.velocity == 0)

/-- Modelled from the spec: raylib's `CheckCollisionCircleLine` is not in the
repository; the specification has it "test circle-vs-segment intersection using
the particle's position and radius against the surface's two endpoints". In
exact arithmetic: the point of the segment nearest to the centre is within the
radius. -/
noncomputable def circleHitsSegment (center : Vector2 ℝ) (radius : ℝ)
    (p1 p2 : Vector2 ℝ) : Bool :=
  let dx := p2.x - p1.x
  let dy := p2.y - p1.y
  let t := max 0 (min 1 (((center.x - p1.x) * dx + (center.y - p1.y) * dy) / (dx * dx + dy * dy)))
  let nx := p1.x + t * dx - center.x
  let ny := p1.y + t * dy - center.y
  decide (nx * nx + ny * ny ≤ radius * radius)

/-- The conversion of a `float` to `int` in exact arithmetic: the fractional part
is dropped. -/
noncomputable def truncate (x : ℝ) : Int :=
  if 0 ≤ x then ⌊x⌋ else ⌈x⌉

/-! ## Scene codec (lines 44-82)

`Save` dumps the in-memory records and `Load` reads them back.  A `float` in
memory is its 32-bit word, so the codec works on `Scene Bits32`; words and the
`size_t` counts are laid out little-endian, and `Particle` (32 bytes) and
`Surface` (16 bytes) have no padding since every member is 4-byte aligned. -/

/-- The 32-bit word of a `float` in memory. -/
abbrev Bits32 := Fin 4294967296

/-- The contents of a file, and what is left of it while reading. -/
abbrev Stream := List Byte

/-- The low octet of a number. -/
def byte (n : Nat) : Byte := ⟨n % 256, Nat.mod_lt n (by decide)⟩

/-- `sizeof(bool)` = 1: the byte of a `bool`. -/
def boolBytes (b : Bool) : Stream := [if b then 1 else 0]

/-- `sizeof(float)` = 4: the bytes of a `float`, lowest first. -/
def floatBytes (w : Bits32) : Stream :=
  [byte w.val, byte (w.val / 256), byte (w.val / 65536), byte (w.val / 16777216)]

/-- `sizeof(size_t)` = 8: the bytes of a count, lowest first; the count is taken `% 2^64`. -/
def sizeBytes (n : Nat) : Stream :=
  [byte n, byte (n / 256), byte (n / 65536), byte (n / 16777216),
   byte (n / 4294967296), byte (n / 1099511627776), byte (n / 281474976710656),
   byte (n / 72057594037927936)]

/-- The bytes of a `Vector2` (`sizeof` = 8). -/
def vector2Bytes (v : Vector2 Bits32) : Stream :=
  floatBytes v.x ++ floatBytes v.y

/-- The bytes of a `Vector3` (`sizeof` = 12). -/
def vector3Bytes (v : Vector3 Bits32) : Stream :=
  floatBytes v.x ++ floatBytes v.y ++ floatBytes v.z

/-- The bytes of a `Color` (`sizeof` = 4). -/
def colorBytes (c : Color) : Stream := [c.r, c.g, c.b, c.a]

/-- The bytes of a `Particle` record (`sizeof` = 32), members in declaration order. -/
def particleBytes (p : Particle Bits32) : Stream :=
  vector2Bytes p.position ++ vector3Bytes p.velocity ++ colorBytes p.color ++
    floatBytes p.mass ++ floatBytes p.r

/-- The bytes of a `Surface` record (`sizeof` = 16). -/
def surfaceBytes (s : Surface Bits32) : Stream :=
  vector2Bytes s.p1 ++ vector2Bytes s.p2

/-- The bytes of `particles.data()`: the records one after the other. -/
def particlesBytes : List (Particle Bits32) → Stream
  | [] => []
  | p :: ps => particleBytes p ++ particlesBytes ps

/-- The bytes of `surfaces.data()`. -/
def surfacesBytes : List (Surface Bits32) → Stream
  | [] => []
  | s :: ss => surfaceBytes s ++ surfacesBytes ss

/-- Lines 69-82: `Save`; the result is the contents of the (truncated) file. -/
def Save (scene : Scene Bits32) : Stream :=
  boolBytes scene.bouncyBorders ++ vector2Bytes scene.defaultVel ++
    sizeBytes scene.particles.length ++ particlesBytes scene.particles ++
    sizeBytes scene.surfaces.length ++ surfacesBytes scene.surfaces

/-- `ifs.read` of one `bool`. `none` stands for a short read, after which the
C++ object read into has no specified value. -/
def readBool : Stream → Option (Bool × Stream)
  | b :: rest => some (decide (b ≠ 0), rest)
  | [] => none

/-- `ifs.read` of one `float`. -/
def readFloat : Stream → Option (Bits32 × Stream)
  | b0 :: b1 :: b2 :: b3 :: rest =>
    some (⟨b0.val + 256 * b1.val + 65536 * b2.val + 16777216 * b3.val, by omega⟩, rest)
  | _ => none

/-- `ifs.read` of one `size_t`. -/
def readSize : Stream → Option (Nat × Stream)
  | b0 :: b1 :: b2 :: b3 :: b4 :: b5 :: b6 :: b7 :: rest =>
    some (b0.val + 256 * b1.val + 65536 * b2.val + 16777216 * b3.val +
      4294967296 * b4.val + 1099511627776 * b5.val + 281474976710656 * b6.val +
      72057594037927936 * b7.val, rest)
  | _ => none

/-- `ifs.read` of one `Vector2`. -/
def readVector2 (s : Stream) : Option (Vector2 Bits32 × Stream) := do
  let (x, s) ← readFloat s
  let (y, s) ← readFloat s
  pure (⟨x, y⟩, s)

/-- `ifs.read` of one `Vector3`. -/
def readVector3 (s : Stream) : Option (Vector3 Bits32 × Stream) := do
  let (x, s) ← readFloat s
  let (y, s) ← readFloat s
  let (z, s) ← readFloat s
  pure (⟨x, y, z⟩, s)

/-- `ifs.read` of one `Color`. -/
def readColor : Stream → Option (Color × Stream)
  | r :: g :: b :: a :: rest => some (⟨r, g, b, a⟩, rest)
  | _ => none

/-- One `Particle` record out of the bytes read into `particles.data()`. -/
def readParticle (s : Stream) : Option (Particle Bits32 × Stream) := do
  let (position, s) ← readVector2 s
  let (velocity, s) ← readVector3 s
  let (color, s) ← readColor s
  let (mass, s) ← readFloat s
  let (r, s) ← readFloat s
  pure (⟨position, velocity, color, mass, r⟩, s)

/-- One `Surface` record out of the bytes read into `surfaces.data()`. -/
def readSurface (s : Stream) : Option (Surface Bits32 × Stream) := do
  let (p1, s) ← readVector2 s
  let (p2, s) ← readVector2 s
  pure (⟨p1, p2⟩, s)

/-- Lines 55-56: a vector of `size` particles filled by one `ifs.read` of
`sizeof(Particle) * size` bytes. -/
def readParticles : Nat → Stream → Option (List (Particle Bits32) × Stream)
  | 0, s => some ([], s)
  | n + 1, s => do
    let (p, s) ← readParticle s
    let (ps, s) ← readParticles n s
    pure (p :: ps, s)

/-- Lines 59-60: a vector of `size` surfaces filled by one `ifs.read`. -/
def readSurfaces : Nat → Stream → Option (List (Surface Bits32) × Stream)
  | 0, s => some ([], s)
  | n + 1, s => do
    let (x, s) ← readSurface s
    let (xs, s) ← readSurfaces n s
    pure (x :: xs, s)

/-- Lines 44-67: `Load`, from the contents of the file. Bytes after the last
record are not looked at. -/
def Load (file : Stream) : Option (Scene Bits32) := do
  let (bouncyBorders, s) ← readBool file
  let (defaultVel, s) ← readVector2 s
  let (size, s) ← readSize s
  let (particles, s) ← readParticles size s
  let (size, s) ← readSize s
  let (surfaces, _) ← readSurfaces size s
  pure ⟨bouncyBorders, defaultVel, particles, surfaces⟩

/-! ## binary32

`float` as the program has it: IEEE 754 binary32 with round to nearest, ties to
even. A finite value is `mag * 2^-149` with a sign, so that every finite
binary32 number, subnormal or not, is a natural number of units, and both zeros
are there. The operations below are the IEEE ones for `+ - * /`, `sqrt`, `==`
and `<`; NaN has no payload. -/

/-- A binary32 value. -/
inductive F32 where
  | finite (negative : Bool) (mag : Nat)
  | inf (negative : Bool)
  | nan
deriving DecidableEq, Repr

/-- The number of binary digits of `n`, by halving (`fuel` bounds the halvings). -/
def F32.bitLength : Nat → Nat → Nat
  | 0, _ => 0
  | fuel + 1, n => if n = 0 then 0 else F32.bitLength fuel (n / 2) + 1

/-- Rounding to nearest, ties to even. The exact magnitude is `(F + d) * 2^-(149+k)`
with `0 ≤ d < 1`, `d > 0` exactly when `sticky`, and `1 ≤ k`. The lowest `s` bits
are dropped so that 24 significant bits stay, never below the unit `2^-149`; a
result of `2^128` or more is an infinity. -/
def F32.round (negative : Bool) (k : Nat) (F : Nat) (sticky : Bool) : F32 :=
  let s := max k (F32.bitLength F F - 24)
  let q := F / 2 ^ s
  let r := F % 2 ^ s
  let half := 2 ^ (s - 1)
  let up := decide (half < r) || (decide (r = half) && (sticky || decide (q % 2 = 1)))
  let n := (if up then q + 1 else q) * 2 ^ (s - k)
  if 2 ^ 128 * 2 ^ 149 ≤ n then F32.inf negative else F32.finite negative n

/-- The integer square root, one binary digit at a time from bit `b - 1` down. -/
def F32.isqrtAux (n : Nat) : Nat → Nat → Nat
  | 0, r => r
  | b + 1, r => F32.isqrtAux n b (if (r + 2 ^ b) * (r + 2 ^ b) ≤ n then r + 2 ^ b else r)

/-- The integer square root of `n`. -/
def F32.isqrt (n : Nat) : Nat :=
  F32.isqrtAux n (F32.bitLength n n / 2 + 1) 0

/-- Unary minus. -/
def F32.neg : F32 → F32
  | .finite s m => .finite (!s) m
  | .inf s => .inf (!s)
  | .nan => .nan

/-- The binary32 sum. An exact zero from operands of opposite sign is `+0`. -/
def F32.add : F32 → F32 → F32
  | .nan, _ => .nan
  | _, .nan => .nan
  | .inf s, .inf t => if s = t then .inf s else .nan
  | .inf s, .finite _ _ => .inf s
  | .finite _ _, .inf t => .inf t
  | .finite s m, .finite t n =>
    if s = t then F32.round s 1 (2 * (m + n)) false
    else if n < m then F32.round s 1 (2 * (m - n)) false
    else if m < n then F32.round t 1 (2 * (n - m)) false
    else .finite false 0

/-- The binary32 difference. -/
def F32.sub (a b : F32) : F32 := F32.add a (F32.neg b)

/-- The binary32 product: the exact product is in units of `2^-298`. -/
def F32.mul : F32 → F32 → F32
  | .nan, _ => .nan
  | _, .nan => .nan
  | .inf s, .inf t => .inf (xor s t)
  | .inf s, .finite t n => if n = 0 then .nan else .inf (xor s t)
  | .finite s m, .inf t => if m = 0 then .nan else .inf (xor s t)
  | .finite s m, .finite t n => F32.round (xor s t) 149 (m * n) false

/-- The binary32 quotient: the exact quotient, in units of `2^-150`, is
`m * 2^150 / n`, floored, with the remainder as the sticky bit. -/
def F32.div : F32 → F32 → F32
  | .nan, _ => .nan
  | _, .nan => .nan
  | .inf _, .inf _ => .nan
  | .inf s, .finite t _ => .inf (xor s t)
  | .finite s _, .inf t => .finite (xor s t) 0
  | .finite s m, .finite t n =>
    if n = 0 then (if m = 0 then .nan else .inf (xor s t))
    else F32.round (xor s t) 1 (m * 2 ^ 150 / n) (decide (m * 2 ^ 150 % n ≠ 0))

/-- The binary32 square root (`sqrtf`, correctly rounded as IEEE 754 requires):
in units of `2^-150` the exact root of `m * 2^-149` is the root of `m * 2^151`. -/
def F32.sqrt : F32 → F32
  | .nan => .nan
  | .inf s => if s then .nan else .inf false
  | .finite s m =>
    if m = 0 then .finite s 0
    else if s then .nan
    else F32.round false 1 (F32.isqrt (m * 2 ^ 151))
      (decide (F32.isqrt (m * 2 ^ 151) * F32.isqrt (m * 2 ^ 151) ≠ m * 2 ^ 151))

/-- The comparison `==`: NaN equals nothing, the two zeros are equal. -/
def F32.beq : F32 → F32 → Bool
  | .finite s m, .finite t n =>
    (decide (m = 0) && decide (n = 0)) || (decide (s = t) && decide (m = n))
  | .inf s, .inf t => decide (s = t)
  | _, _ => false

/-- The comparison `<`: false when an operand is NaN, and between the two zeros. -/
def F32.lt : F32 → F32 → Bool
  | .nan, _ => false
  | _, .nan => false
  | .inf s, .inf t => s && !t
  | .inf s, .finite _ _ => s
  | .finite _ _, .inf t => !t
  | .finite false m, .finite false n => decide (m < n)
  | .finite true m, .finite true n => decide (n < m)
  | .finite true m, .finite false n => decide (0 < m) || decide (0 < n)
  | .finite false _, .finite true _ => false

/-- The conversion of an `int` literal to `float`. -/
def F32.ofNat (n : Nat) : F32 := F32.round false 1 (2 * (n * 2 ^ 149)) false

/-- The value `±m * 2^e` units of `2^-149`, for writing constants. -/
def F32.units (negative : Bool) (m e : Nat) : F32 := F32.finite negative (m * 2 ^ e)

instance : Zero F32 := ⟨F32.finite false 0⟩
instance : One F32 := ⟨F32.ofNat 1⟩
instance : OfNat F32 2 := ⟨F32.ofNat 2⟩
instance : OfNat F32 60 := ⟨F32.ofNat 60⟩
instance : Add F32 := ⟨F32.add⟩
instance : Sub F32 := ⟨F32.sub⟩
instance : Mul F32 := ⟨F32.mul⟩
instance : Div F32 := ⟨F32.div⟩
instance : BEq F32 := ⟨F32.beq⟩
instance : LT F32 := ⟨fun a b => F32.lt a b = true⟩
instance : DecidableRel (fun a b : F32 => a < b) :=
  fun a b => inferInstanceAs (Decidable (F32.lt a b = true))

/-- `<cmath>` on binary32: `sqrtf` is fixed by IEEE 754; `atan2f`, `cosf` and
`sinf` are the platform's and stay parameters. -/
def binary32 (atan2f : F32 → F32 → F32) (cosf sinf : F32 → F32) : Libm F32 where
  sqrt := F32.sqrt
  atan2f := atan2f
  cosf := cosf
  sinf := sinf

/-! ### Codec lemmas -/

theorem readBool_boolBytes (b : Bool) (rest : Stream) :
    readBool (boolBytes b ++ rest) = some (b, rest) := by
  cases b <;> simp [readBool, boolBytes]

theorem readFloat_floatBytes (w : Bits32) (rest : Stream) :
    readFloat (floatBytes w ++ rest) = some (w, rest) := by
  obtain ⟨n, hn⟩ := w
  simp only [floatBytes, byte, List.cons_append, List.nil_append, readFloat, Option.some.injEq,
    Prod.mk.injEq, and_true, Fin.mk.injEq]
  omega

theorem readSize_sizeBytes (n : Nat) (hn : n < 2 ^ 64) (rest : Stream) :
    readSize (sizeBytes n ++ rest) = some (n, rest) := by
  simp only [sizeBytes, byte, List.cons_append, List.nil_append, readSize, Option.some.injEq,
    Prod.mk.injEq, and_true]
  omega

theorem readVector2_vector2Bytes (v : Vector2 Bits32) (rest : Stream) :
    readVector2 (vector2Bytes v ++ rest) = some (v, rest) := by
  simp [readVector2, vector2Bytes, List.append_assoc, readFloat_floatBytes]

theorem readVector3_vector3Bytes (v : Vector3 Bits32) (rest : Stream) :
    readVector3 (vector3Bytes v ++ rest) = some (v, rest) := by
  simp [readVector3, vector3Bytes, List.append_assoc, readFloat_floatBytes]

theorem readColor_colorBytes (c : Color) (rest : Stream) :
    readColor (colorBytes c ++ rest) = some (c, rest) := by
  simp [readColor, colorBytes]

theorem readParticle_particleBytes (p : Particle Bits32) (rest : Stream) :
    readParticle (particleBytes p ++ rest) = some (p, rest) := by
  simp [readParticle, particleBytes, List.append_assoc, readVector2_vector2Bytes,
    readVector3_vector3Bytes, readColor_colorBytes, readFloat_floatBytes]

theorem readSurface_surfaceBytes (x : Surface Bits32) (rest : Stream) :
    readSurface (surfaceBytes x ++ rest) = some (x, rest) := by
  simp [readSurface, surfaceBytes, List.append_assoc, readVector2_vector2Bytes]

theorem readParticles_particlesBytes (ps : List (Particle Bits32)) (rest : Stream) :
    readParticles ps.length (particlesBytes ps ++ rest) = some (ps, rest) := by
  induction ps with
  | nil => simp [readParticles, particlesBytes]
  | cons p ps ih =>
    simp [readParticles, particlesBytes, List.append_assoc, readParticle_particleBytes, ih]

theorem readSurfaces_surfacesBytes (xs : List (Surface Bits32)) (rest : Stream) :
    readSurfaces xs.length (surfacesBytes xs ++ rest) = some (xs, rest) := by
  induction xs with
  | nil => simp [readSurfaces, surfacesBytes]
  | cons x xs ih =>
    simp [readSurfaces, surfacesBytes, List.append_assoc, readSurface_surfaceBytes, ih]

/-- C1. Round trip of the scene codec: `Load` applied to the bytes `Save` wrote
for a scene returns that scene, field for field (flag, drift, particles in order,
surfaces in order), for zero or more particles and surfaces.  The two bounds say
that the element counts fit `size_t`, which holds of every `std::vector`. -/
theorem Load_Save (scene : Scene Bits32)
    (hp : scene.particles.length < 2 ^ 64) (hs : scene.surfaces.length < 2 ^ 64) :
    Load (Save scene) = some scene := by
  obtain ⟨flag, drift, ps, ss⟩ := scene
  have h := readSurfaces_surfacesBytes ss []
  rw [List.append_nil] at h
  simp [Load, Save, List.append_assoc, readBool_boolBytes, readVector2_vector2Bytes,
    readSize_sizeBytes _ hp, readParticles_particlesBytes, readSize_sizeBytes _ hs, h]

/-- C1 at a concrete scene: one particle, one surface, the flag set. -/
theorem Load_Save_witness :
    Load (Save ⟨true, ⟨1065353216, 0⟩,
        [⟨⟨1, 2⟩, ⟨3, 4, 4294967295⟩, ⟨230, 41, 55, 255⟩, 1065353216, 7⟩],
        [⟨⟨10, 20⟩, ⟨30, 40⟩⟩]⟩) =
      some ⟨true, ⟨1065353216, 0⟩,
        [⟨⟨1, 2⟩, ⟨3, 4, 4294967295⟩, ⟨230, 41, 55, 255⟩, 1065353216, 7⟩],
        [⟨⟨10, 20⟩, ⟨30, 40⟩⟩]⟩ :=
  Load_Save _ (by decide) (by decide)

/-- The file of the empty scene: flag, drift, and two zero counts, 25 bytes. -/
theorem Save_empty :
    Save ⟨false, ⟨0, 0⟩, [], []⟩ = List.replicate 25 (0 : Byte) := by
  decide

/-! ## Vector math in exact arithmetic -/

theorem magnitude_exact (v : Vector2 ℝ) :
    magnitude exact v = Real.sqrt (v.x * v.x + v.y * v.y) := rfl

theorem magnitude2_exact (v : Vector3 ℝ) :
    magnitude2 exact v = Real.sqrt (v.x * v.x + v.y * v.y) := rfl

theorem sq_add_nonneg (x y : ℝ) : 0 ≤ x * x + y * y :=
  add_nonneg (mul_self_nonneg x) (mul_self_nonneg y)

theorem sqrt_sq_add_eq_zero_iff (x y : ℝ) :
    Real.sqrt (x * x + y * y) = 0 ↔ x = 0 ∧ y = 0 := by
  rw [Real.sqrt_eq_zero (sq_add_nonneg x y)]
  constructor
  · intro h
    constructor <;> nlinarith [mul_self_nonneg x, mul_self_nonneg y]
  · rintro ⟨rfl, rfl⟩
    simp

theorem magnitude_eq_zero_iff (v : Vector2 ℝ) :
    magnitude exact v = 0 ↔ v.x = 0 ∧ v.y = 0 := by
  rw [magnitude_exact, sqrt_sq_add_eq_zero_iff]

theorem magnitude2_eq_zero_iff (v : Vector3 ℝ) :
    magnitude2 exact v = 0 ↔ v.x = 0 ∧ v.y = 0 := by
  rw [magnitude2_exact, sqrt_sq_add_eq_zero_iff]

theorem normalize_of_ne (v : Vector2 ℝ) (h : magnitude exact v ≠ 0) :
    normalize exact v = ⟨v.x / magnitude exact v, v.y / magnitude exact v⟩ := by
  simp [normalize, h]

theorem normalize_of_eq (v : Vector2 ℝ) (h : magnitude exact v = 0) :
    normalize exact v = ⟨0, 0⟩ := by
  simp [normalize, h]

theorem normalize2_of_ne (v : Vector3 ℝ) (h : magnitude2 exact v ≠ 0) :
    normalize2 exact v = ⟨v.x / magnitude2 exact v, v.y / magnitude2 exact v, v.z⟩ := by
  simp [normalize2, h]

theorem normalize2_of_eq (v : Vector3 ℝ) (h : magnitude2 exact v = 0) :
    normalize2 exact v = ⟨0, 0, 0⟩ := by
  simp [normalize2, h]

theorem sqrt_div_self_sq (x y : ℝ) (h : Real.sqrt (x * x + y * y) ≠ 0) :
    Real.sqrt (x / Real.sqrt (x * x + y * y) * (x / Real.sqrt (x * x + y * y)) +
      y / Real.sqrt (x * x + y * y) * (y / Real.sqrt (x * x + y * y))) = 1 := by
  have hs : Real.sqrt (x * x + y * y) * Real.sqrt (x * x + y * y) = x * x + y * y :=
    Real.mul_self_sqrt (sq_add_nonneg x y)
  have : x / Real.sqrt (x * x + y * y) * (x / Real.sqrt (x * x + y * y)) +
      y / Real.sqrt (x * x + y * y) * (y / Real.sqrt (x * x + y * y)) = 1 := by
    field_simp
    linarith
  rw [this, Real.sqrt_one]

theorem magnitude_normalize (v : Vector2 ℝ) (h : magnitude exact v ≠ 0) :
    magnitude exact (normalize exact v) = 1 := by
  rw [normalize_of_ne v h]
  exact sqrt_div_self_sq v.x v.y h

theorem magnitude2_normalize2 (v : Vector3 ℝ) (h : magnitude2 exact v ≠ 0) :
    magnitude2 exact (normalize2 exact v) = 1 := by
  rw [normalize2_of_ne v h]
  exact sqrt_div_self_sq v.x v.y h

/-- A vector of magnitude 1 is its own `normalize`. -/
theorem normalize_of_unit (v : Vector2 ℝ) (h : magnitude exact v = 1) :
    normalize exact v = v := by
  rw [normalize_of_ne v (by rw [h]; exact one_ne_zero), h]
  simp

theorem magnitude_cos_sin (t : ℝ) : magnitude exact ⟨Real.cos t, Real.sin t⟩ = 1 := by
  rw [magnitude_exact]
  have : Real.cos t * Real.cos t + Real.sin t * Real.sin t = 1 := by
    nlinarith [Real.sin_sq_add_cos_sq t]
  rw [this, Real.sqrt_one]

theorem normalize_cos_sin (t : ℝ) :
    normalize exact ⟨Real.cos t, Real.sin t⟩ = ⟨Real.cos t, Real.sin t⟩ :=
  normalize_of_unit _ (magnitude_cos_sin t)

/-! ## C4, C5: the zero guard and the unit length -/

section ZeroGuard

variable {R : Type} [Zero R] [Add R] [Mul R] [Div R] [BEq R]

/-- C4. Zero guard of normalization: when `magnitude v` compares equal to 0,
`normalize v` is the literal `(0,0)`, and when `magnitude2 w` compares equal to 0,
`normalize2 w` is the literal `(0,0,0)`.  This holds for every carrier of `float`
and every meaning of `/`, `sqrt` and `==`: the division is not evaluated on that
path, so the result cannot be what a division by zero yields (NaN, infinity). -/
theorem normalize_zero_guard (L : Libm R) (v : Vector2 R) (w : Vector3 R) :
    ((magnitude L v == 0) = true → normalize L v = ⟨0, 0⟩) ∧
    ((magnitude2 L w == 0) = true → normalize2 L w = ⟨0, 0, 0⟩) := by
  constructor
  · intro h
    simp only [normalize, h, if_true]
  · intro h
    simp only [normalize2, h, if_true]

end ZeroGuard

/-- C4 at a concrete input in exact arithmetic: the zero vectors. -/
theorem normalize_zero_guard_witness :
    normalize exact (⟨0, 0⟩ : Vector2 ℝ) = ⟨0, 0⟩ ∧
    normalize2 exact (⟨0, 0, 7⟩ : Vector3 ℝ) = ⟨0, 0, 0⟩ :=
  ⟨(normalize_zero_guard exact ⟨0, 0⟩ ⟨0, 0, 7⟩).1 (by simp [magnitude, exact]),
   (normalize_zero_guard exact ⟨0, 0⟩ ⟨0, 0, 7⟩).2 (by simp [magnitude2, exact])⟩

/-- C5 as stated fails: `(0,0,5)` is a nonzero 3D vector, yet `normalize2` maps it
to `(0,0,0)`, of `magnitude2` 0, and does not keep its `z`. -/
theorem normalize2_nonzero_counterexample :
    (⟨0, 0, 5⟩ : Vector3 ℝ) ≠ ⟨0, 0, 0⟩ ∧
    ¬ (magnitude2 exact (normalize2 exact ⟨0, 0, 5⟩) = 1 ∧
       (normalize2 exact (⟨0, 0, 5⟩ : Vector3 ℝ)).z = 5) := by
  have h : normalize2 exact (⟨0, 0, 5⟩ : Vector3 ℝ) = ⟨0, 0, 0⟩ :=
    normalize2_of_eq _ (by simp [magnitude2_exact])
  refine ⟨by simp, ?_⟩
  rw [h]
  simp

/-- C5, amended. Unit length in exact arithmetic: a 2D vector other than `(0,0)`
has a `normalize` of magnitude 1; a 3D vector whose `(x,y)` part is not `(0,0)` has
a `normalize2` of `magnitude2` 1 with its `z` unchanged. -/
theorem normalize_unit_length (v : Vector2 ℝ) (w : Vector3 ℝ) :
    (v ≠ ⟨0, 0⟩ → magnitude exact (normalize exact v) = 1) ∧
    ((w.x ≠ 0 ∨ w.y ≠ 0) →
      magnitude2 exact (normalize2 exact w) = 1 ∧ (normalize2 exact w).z = w.z) := by
  constructor
  · intro hv
    apply magnitude_normalize
    rw [Ne, magnitude_eq_zero_iff]
    rintro ⟨hx, hy⟩
    apply hv
    cases v
    simp_all
  · intro hw
    have h : magnitude2 exact w ≠ 0 := by
      rw [Ne, magnitude2_eq_zero_iff]
      tauto
    exact ⟨magnitude2_normalize2 w h, by rw [normalize2_of_ne w h]⟩

/-- C5 at concrete inputs: `(3,4)` and `(3,4,7)`. -/
theorem normalize_unit_length_witness :
    magnitude exact (normalize exact (⟨3, 4⟩ : Vector2 ℝ)) = 1 ∧
    magnitude2 exact (normalize2 exact (⟨3, 4, 7⟩ : Vector3 ℝ)) = 1 ∧
    (normalize2 exact (⟨3, 4, 7⟩ : Vector3 ℝ)).z = 7 :=
  ⟨(normalize_unit_length ⟨3, 4⟩ ⟨3, 4, 7⟩).1 (by simp),
   (normalize_unit_length ⟨3, 4⟩ ⟨3, 4, 7⟩).2 (Or.inl (by norm_num))⟩

/-! ## C3: the order of the per-frame step -/

section StepOrder

variable {R : Type} [Zero R] [OfNat R 2] [Add R] [Sub R] [Mul R] [Div R] [BEq R]

theorem collide_position (L : Libm R) (hit : Vector2 R → R → Vector2 R → Vector2 R → Bool)
    (p : Particle R) (s : Surface R) : (collide L hit p s).position = p.position := by
  unfold collide
  split <;> rfl

theorem collide_speed (L : Libm R) (hit : Vector2 R → R → Vector2 R → Vector2 R → Bool)
    (p : Particle R) (s : Surface R) : (collide L hit p s).velocity.z = p.velocity.z := by
  unfold collide
  split <;> rfl

theorem foldl_collide_position (L : Libm R)
    (hit : Vector2 R → R → Vector2 R → Vector2 R → Bool) (ss : List (Surface R))
    (p : Particle R) : (ss.foldl (collide L hit) p).position = p.position := by
  induction ss generalizing p with
  | nil => rfl
  | cons s ss ih => rw [List.foldl_cons, ih, collide_position]

theorem foldl_collide_speed (L : Libm R)
    (hit : Vector2 R → R → Vector2 R → Vector2 R → Bool) (ss : List (Surface R))
    (p : Particle R) : (ss.foldl (collide L hit) p).velocity.z = p.velocity.z := by
  induction ss generalizing p with
  | nil => rfl
  | cons s ss ih => rw [List.foldl_cons, ih, collide_speed]

/-- C3, amended. Order of the per-frame step, for every carrier of `float`: the
position is advanced first, by the heading the particle had before the frame
times its speed; the heading is recomputed afterwards as
`normalize (old heading + drift)` (shown here with no surface to reflect on);
the speed `z` is left untouched whatever the surfaces. -/
theorem stepParticle_order (L : Libm R)
    (hit : Vector2 R → R → Vector2 R → Vector2 R → Bool)
    (drift : Vector2 R) (surfaces : List (Surface R)) (p : Particle R) :
    (stepParticle L hit drift surfaces p).position =
        ⟨p.position.x + p.velocity.x * p.velocity.z,
         p.position.y + p.velocity.y * p.velocity.z⟩ ∧
    (stepParticle L hit drift surfaces p).velocity.z = p.velocity.z ∧
    heading (stepParticle L hit drift [] p) =
        normalize L ⟨p.velocity.x + drift.x, p.velocity.y + drift.y⟩ := by
  refine ⟨?_, ?_, ?_⟩
  · simp only [stepParticle, foldl_collide_position]
    rfl
  · simp only [stepParticle, foldl_collide_speed]
    rfl
  · rfl

end StepOrder

/-- C3 as stated fails: with heading `(1,0)`, speed 1 and drift `(-2,0)` the code
moves the particle from `(0,0)` to `(1,0)`, where the claim has it at
`(0,0) + normalize((1,0) + (-2,0)) * 1 = (-1,0)`. -/
theorem stepParticle_order_counterexample :
    (stepParticle exact (fun _ _ _ _ => false) ⟨-2, 0⟩ []
        ⟨⟨0, 0⟩, ⟨1, 0, 1⟩, ⟨0, 0, 0, 0⟩, 1, 1⟩).position = (⟨1, 0⟩ : Vector2 ℝ) ∧
    (⟨0 + (normalize exact ⟨1 + -2, 0 + 0⟩).x * 1,
      0 + (normalize exact ⟨1 + -2, 0 + 0⟩).y * 1⟩ : Vector2 ℝ) = ⟨-1, 0⟩ ∧
    (⟨1, 0⟩ : Vector2 ℝ) ≠ ⟨-1, 0⟩ := by
  have hm : magnitude exact (⟨1 + -2, 0 + 0⟩ : Vector2 ℝ) = 1 := by
    rw [magnitude_exact]
    norm_num
  refine ⟨?_, ?_, ?_⟩
  · simp [stepParticle, applyDrift, advance]
  · rw [normalize_of_unit _ hm]
    norm_num
  · intro h
    have := congrArg Vector2.x h
    norm_num at this

/-! ## C6, C7: the load-time normalisation -/

theorem normalizeLoop_fst {R : Type} [Zero R] [Add R] [Mul R] [Div R] [BEq R] [LT R]
    [DecidableRel (fun a b : R => a < b)] (L : Libm R) (ps : List (Particle R)) (m : R) :
    (normalizeLoop L ps m).1 =
      ps.map (fun p => { p with velocity := normalize2 L p.velocity }) := by
  induction ps generalizing m with
  | nil => rfl
  | cons p ps ih => simp only [normalizeLoop, List.map_cons, ih]

theorem foldr_max_start (l : List (Particle ℝ)) (m z : ℝ) :
    l.foldr (fun p a => max p.velocity.z a) (max m z) =
      max z (l.foldr (fun p a => max p.velocity.z a) m) := by
  induction l with
  | nil => simp [max_comm]
  | cons q l ih => simp only [List.foldr_cons, ih, max_left_comm]

theorem le_foldr_max (l : List (Particle ℝ)) (m : ℝ) :
    m ≤ l.foldr (fun p a => max p.velocity.z a) m := by
  induction l with
  | nil => simp
  | cons q l ih => exact le_trans ih (le_max_right _ _)

/-- The value of `max` after the first loop, started from a nonnegative value:
particles of heading `(0,0)` do not count, their speed having been zeroed. -/
theorem normalizeLoop_snd (ps : List (Particle ℝ)) (m : ℝ) (hm : 0 ≤ m) :
    (normalizeLoop exact ps m).2 =
      (ps.filter hasHeading).foldr (fun p a => max p.velocity.z a) m := by
  induction ps generalizing m with
  | nil => rfl
  | cons p ps ih =>
    simp only [normalizeLoop]
    by_cases h : magnitude2 exact p.velocity = 0
    · have hh : hasHeading p = false := by
        have := (magnitude2_eq_zero_iff p.velocity).1 h
        simp [hasHeading, this.1, this.2]
      rw [normalize2_of_eq _ h, List.filter_cons_of_neg (by simp [hh])]
      have : ¬ (0 : ℝ) > m := not_lt.2 hm
      simp only [this, if_false]
      exact ih m hm
    · have hh : hasHeading p = true := by
        have := mt (magnitude2_eq_zero_iff p.velocity).2 h
        simp only [hasHeading, decide_eq_true_eq]
        tauto
      rw [normalize2_of_ne _ h, List.filter_cons_of_pos hh, List.foldr_cons]
      have hmax : (if p.velocity.z > m then p.velocity.z else m) = max m p.velocity.z := by
        rw [max_def]
        split_ifs <;> linarith
      simp only [hmax]
      rw [ih _ (le_trans hm (le_max_left _ _)), foldr_max_start]

theorem loadNormalize_max (scene : Scene ℝ) :
    (loadNormalize exact scene).max = peakSpeed (scene.particles.filter hasHeading) :=
  normalizeLoop_snd scene.particles 1 zero_le_one

/-- The particles after the load-time normalisation, one for one. -/
theorem loadNormalize_particles (scene : Scene ℝ) :
    (loadNormalize exact scene).particles =
      scene.particles.map (fun p =>
        { p with velocity :=
            ⟨(normalize2 exact p.velocity).x, (normalize2 exact p.velocity).y,
             (normalize2 exact p.velocity).z / peakSpeed (scene.particles.filter hasHeading)⟩ }) := by
  have h := loadNormalize_max scene
  simp only [loadNormalize] at h ⊢
  rw [h, normalizeLoop_fst, divideSpeeds, List.map_map]
  rfl

/-! ### The first loop, for every arithmetic

The statements of this part hold for every carrier of `float` and every meaning
of `+ * /`, `sqrt` and `==`; of `<` they use only that it is transitive and
irreflexive, and that `0 < 1`. binary32 is such a carrier, NaN and the infinities
included. -/

/-- The speed `normalize2` leaves: 0 when the guard fires, the stored one otherwise. -/
theorem normalize2_speed {R : Type} [Zero R] [Add R] [Mul R] [Div R] [BEq R]
    (L : Libm R) (v : Vector3 R) :
    (normalize2 L v).z = if (magnitude2 L v == 0) = true then 0 else v.z := by
  by_cases h : (magnitude2 L v == 0) = true <;> simp [normalize2, h]

section LoadLoop

variable {R : Type} [Zero R] [Add R] [Mul R] [Div R] [BEq R] [LT R]
  [DecidableRel (fun a b : R => a < b)]

/-- The value of `max` after the first loop started from `m`: it is `m`, or it
is above `m` and is the normalised speed of a particle; and no normalised speed
is above it. -/
theorem normalizeLoop_snd_spec (L : Libm R)
    (htrans : ∀ a b c : R, a < b → b < c → a < c) (hirr : ∀ a : R, ¬ a < a)
    (ps : List (Particle R)) (m : R) :
    ((normalizeLoop L ps m).2 = m ∨
      (m < (normalizeLoop L ps m).2 ∧
        ∃ p ∈ ps, (normalize2 L p.velocity).z = (normalizeLoop L ps m).2)) ∧
    ∀ p ∈ ps, ¬ (normalizeLoop L ps m).2 < (normalize2 L p.velocity).z := by
  induction ps generalizing m with
  | nil => exact ⟨Or.inl rfl, fun p hp => absurd hp (List.not_mem_nil p)⟩
  | cons p ps ih =>
    simp only [normalizeLoop]
    by_cases h : m < (normalize2 L p.velocity).z
    · have hm : (if (normalize2 L p.velocity).z > m then (normalize2 L p.velocity).z else m) =
          (normalize2 L p.velocity).z := if_pos h
      rw [hm]
      obtain ⟨h1, h2⟩ := ih (normalize2 L p.velocity).z
      refine ⟨Or.inr ?_, ?_⟩
      · rcases h1 with e | ⟨hlt, q, hq, hz⟩
        · rw [e]
          exact ⟨h, p, List.mem_cons_self _ _, rfl⟩
        · exact ⟨htrans _ _ _ h hlt, q, List.mem_cons_of_mem _ hq, hz⟩
      · intro q hq
        rcases List.mem_cons.1 hq with rfl | hq
        · rcases h1 with e | ⟨hlt, _⟩
          · rw [e]
            exact hirr _
          · intro hc
            exact hirr _ (htrans _ _ _ hc hlt)
        · exact h2 q hq
    · have hm : (if (normalize2 L p.velocity).z > m then (normalize2 L p.velocity).z else m) =
          m := if_neg h
      rw [hm]
      obtain ⟨h1, h2⟩ := ih m
      refine ⟨?_, ?_⟩
      · rcases h1 with e | ⟨hlt, q, hq, hz⟩
        · exact Or.inl e
        · exact Or.inr ⟨hlt, q, List.mem_cons_of_mem _ hq, hz⟩
      · intro q hq
        rcases List.mem_cons.1 hq with rfl | hq
        · rcases h1 with e | ⟨hlt, _⟩
          · rw [e]
            exact h
          · intro hc
            exact h (htrans _ _ _ hlt hc)
        · exact h2 q hq

end LoadLoop

section LoadMax

variable {R : Type} [Zero R] [One R] [Add R] [Mul R] [Div R] [BEq R] [LT R]
  [DecidableRel (fun a b : R => a < b)]

/-- The particles after the load-time normalisation, one for one, for every arithmetic. -/
theorem loadNormalize_particles_eq (L : Libm R) (scene : Scene R) :
    (loadNormalize L scene).particles =
      scene.particles.map (fun p =>
        { p with velocity :=
            ⟨(normalize2 L p.velocity).x, (normalize2 L p.velocity).y,
             (normalize2 L p.velocity).z / (loadNormalize L scene).max⟩ }) := by
  simp only [loadNormalize, normalizeLoop_fst, divideSpeeds, List.map_map]
  rfl

/-- The value of `max` at load time: it is not below 1, no normalised speed is
above it, and it is 1 or the stored speed of a particle that the guard of
`normalize2` lets through. -/
theorem loadNormalize_max_spec (L : Libm R)
    (htrans : ∀ a b c : R, a < b → b < c → a < c) (hirr : ∀ a : R, ¬ a < a)
    (h01 : (0 : R) < 1) (scene : Scene R) :
    ¬ (loadNormalize L scene).max < 1 ∧
    (∀ p ∈ scene.particles,
      ¬ (loadNormalize L scene).max < (normalize2 L p.velocity).z) ∧
    ((loadNormalize L scene).max = 1 ∨
      ∃ p ∈ scene.particles, counted L p = true ∧
        p.velocity.z = (loadNormalize L scene).max) := by
  obtain ⟨h1, h2⟩ := normalizeLoop_snd_spec L htrans hirr scene.particles 1
  show ¬ (normalizeLoop L scene.particles 1).2 < 1 ∧
    (∀ p ∈ scene.particles,
      ¬ (normalizeLoop L scene.particles 1).2 < (normalize2 L p.velocity).z) ∧
    ((normalizeLoop L scene.particles 1).2 = 1 ∨
      ∃ p ∈ scene.particles, counted L p = true ∧
        p.velocity.z = (normalizeLoop L scene.particles 1).2)
  refine ⟨?_, h2, ?_⟩
  · rcases h1 with e | ⟨hlt, _⟩
    · rw [e]
      exact hirr 1
    · intro hc
      exact hirr _ (htrans _ _ _ hlt hc)
  · rcases h1 with e | ⟨hlt, p, hp, hz⟩
    · exact Or.inl e
    · refine Or.inr ⟨p, hp, ?_⟩
      rw [normalize2_speed] at hz
      by_cases hg : (magnitude2 L p.velocity == 0) = true
      · rw [if_pos hg] at hz
        rw [← hz] at hlt
        exact absurd (htrans _ _ _ hlt h01) (hirr 1)
      · rw [if_neg hg] at hz
        refine ⟨?_, hz⟩
        simp only [counted]
        simpa using hg

end LoadMax

set_option maxRecDepth 1000000
set_option exponentiation.threshold 1024

/-! ### binary32: `<` is a strict order -/

theorem F32.lt_def (a b : F32) : a < b ↔ F32.lt a b = true := Iff.rfl

theorem F32.lt_irrefl (a : F32) : ¬ a < a := by
  rw [F32.lt_def]
  cases a with
  | finite s m => cases s <;> simp [F32.lt]
  | inf s => cases s <;> simp [F32.lt]
  | nan => simp [F32.lt]

theorem F32.lt_trans (a b c : F32) (hab : a < b) (hbc : b < c) : a < c := by
  rw [F32.lt_def] at *
  rcases a with ⟨_ | _, m⟩ | ⟨_ | _⟩ | _ <;> rcases b with ⟨_ | _, n⟩ | ⟨_ | _⟩ | _ <;>
    rcases c with ⟨_ | _, k⟩ | ⟨_ | _⟩ | _ <;>
    simp_all [F32.lt] <;> omega

theorem F32.zero_lt_one : (0 : F32) < 1 := by decide

/-- Some values of the binary32 operations: `1 + 1 = 2`; `sqrtf(2) = 1.41421354`;
`2 / 4.5 = 0.444444448`; the square of `2^-100` underflows to 0; the largest
finite number doubled is `+inf`; `inf - inf` is NaN; `1 - 1` is `+0` and
`-0 == +0`. -/
theorem F32.sample_values :
    (1 : F32) + 1 = 2 ∧
    F32.sqrt 2 = F32.units false 11863283 126 ∧
    (2 : F32) / F32.units false 9 148 = F32.units false 14913081 124 ∧
    F32.units false 1 49 * F32.units false 1 49 = 0 ∧
    F32.units false 16777215 253 + F32.units false 16777215 253 = F32.inf false ∧
    F32.inf false - F32.inf false = F32.nan ∧
    (1 : F32) - 1 = F32.finite false 0 ∧
    (F32.finite true 0 == (0 : F32)) = true := by
  refine ⟨by decide, by decide, by decide, by decide, by decide, by decide, by decide, by decide⟩

/-! ### binary32: the integer square root -/

theorem F32.lt_two_pow_bitLength (fuel n : Nat) (h : n ≤ fuel) :
    n < 2 ^ F32.bitLength fuel n := by
  induction fuel generalizing n with
  | zero =>
    have : n = 0 := by omega
    subst this
    simp [F32.bitLength]
  | succ fuel ih =>
    unfold F32.bitLength
    split
    · omega
    · have := ih (n / 2) (by omega)
      rw [pow_succ]
      omega

theorem F32.isqrtAux_spec (n : Nat) (b r : Nat) (h1 : r * r ≤ n)
    (h2 : n < (r + 2 ^ b) * (r + 2 ^ b)) :
    F32.isqrtAux n b r * F32.isqrtAux n b r ≤ n ∧
    n < (F32.isqrtAux n b r + 1) * (F32.isqrtAux n b r + 1) := by
  induction b generalizing r with
  | zero => exact ⟨h1, by simpa using h2⟩
  | succ b ih =>
    unfold F32.isqrtAux
    split
    · rename_i hle
      apply ih _ hle
      have : r + 2 ^ b + 2 ^ b = r + 2 ^ (b + 1) := by rw [pow_succ]; omega
      rw [this]
      exact h2
    · rename_i hle
      exact ih _ h1 (not_le.1 hle)

/-- `F32.isqrt` is the integer square root. -/
theorem F32.isqrt_eq_sqrt (n : Nat) : F32.isqrt n = Nat.sqrt n := by
  have hb := F32.lt_two_pow_bitLength n n (le_refl n)
  have h := F32.isqrtAux_spec n (F32.bitLength n n / 2 + 1) 0 (Nat.zero_le _) (by
    rw [Nat.zero_add, ← pow_add]
    exact lt_of_lt_of_le hb (Nat.pow_le_pow_right (by norm_num) (by omega)))
  exact Nat.eq_sqrt.2 h

/-! ### binary32: a quotient that does not exceed 1 -/

theorem F32.one_eq : (1 : F32) = F32.finite false (2 ^ 149) := by decide

theorem F32.bitLength_le (fuel n k : Nat) (h : n < 2 ^ k) : F32.bitLength fuel n ≤ k := by
  induction fuel generalizing n k with
  | zero => simp [F32.bitLength]
  | succ fuel ih =>
    unfold F32.bitLength
    split
    · omega
    · rename_i hn
      cases k with
      | zero => simp at h; omega
      | succ k =>
        have := ih (n / 2) k (by rw [pow_succ] at h; omega)
        omega

theorem F32.round_le_one (F : Nat) (st : Bool) (h : F ≤ 2 ^ 150) :
    ∃ n, F32.round false 1 F st = F32.finite false n ∧ n ≤ 2 ^ 149 := by
  have hbl : F32.bitLength F F ≤ 151 :=
    F32.bitLength_le F F 151 (lt_of_le_of_lt h (by norm_num))
  have hs1 : 1 ≤ max 1 (F32.bitLength F F - 24) := le_max_left _ _
  have hs2 : max 1 (F32.bitLength F F - 24) ≤ 150 := by omega
  simp only [F32.round]
  generalize max 1 (F32.bitLength F F - 24) = s at hs1 hs2
  have hpos : 0 < 2 ^ s := by positivity
  have h150 : 2 ^ 150 = 2 ^ (150 - s) * 2 ^ s := by
    rw [← pow_add]
    congr 1
    omega
  have h149 : 2 ^ (150 - s) * 2 ^ (s - 1) = 2 ^ 149 := by
    rw [← pow_add]
    congr 1
    omega
  have hq : F / 2 ^ s ≤ 2 ^ (150 - s) := by
    apply Nat.le_of_mul_le_mul_right _ hpos
    calc F / 2 ^ s * 2 ^ s ≤ F := Nat.div_mul_le_self F (2 ^ s)
      _ ≤ 2 ^ 150 := h
      _ = 2 ^ (150 - s) * 2 ^ s := h150
  have hn : (if (decide (2 ^ (s - 1) < F % 2 ^ s) ||
        decide (F % 2 ^ s = 2 ^ (s - 1)) && (st || decide (F / 2 ^ s % 2 = 1))) = true
      then F / 2 ^ s + 1 else F / 2 ^ s) * 2 ^ (s - 1) ≤ 2 ^ 149 := by
    rw [← h149]
    apply Nat.mul_le_mul_right
    split
    · rename_i hup
      by_contra hc
      have hqe : F / 2 ^ s = 2 ^ (150 - s) := by omega
      have hF : F = 2 ^ 150 := by
        have := Nat.div_mul_le_self F (2 ^ s)
        rw [hqe, ← h150] at this
        omega
      have hr : F % 2 ^ s = 0 := by
        rw [hF, h150]
        exact Nat.mul_mod_left _ _
      have hhalf : 0 < 2 ^ (s - 1) := by positivity
      rw [hr] at hup
      simp at hup
      omega
    · exact hq
  refine ⟨_, ?_, hn⟩
  rw [if_neg]
  have : (2 : Nat) ^ 149 < 2 ^ 128 * 2 ^ 149 := by norm_num
  omega

theorem F32.round_negative (k F : Nat) (st : Bool) :
    (∃ n, F32.round true k F st = F32.finite true n) ∨ F32.round true k F st = F32.inf true := by
  have h : ∀ N : Nat,
      (∃ n, (if 2 ^ 128 * 2 ^ 149 ≤ N then F32.inf true else F32.finite true N) =
        F32.finite true n) ∨
      (if 2 ^ 128 * 2 ^ 149 ≤ N then F32.inf true else F32.finite true N) = F32.inf true := by
    intro N
    by_cases hc : 2 ^ 128 * 2 ^ 149 ≤ N
    · exact Or.inr (if_pos hc)
    · exact Or.inl ⟨N, if_neg hc⟩
  exact h _

/-- In binary32, `z / m` does not exceed 1 when `z` does not exceed `m` and `m`
is not below 1. -/
theorem F32.div_le_one (z m : F32) (hz : ¬ m < z) (hm : ¬ m < 1) : ¬ 1 < z / m := by
  rw [F32.lt_def] at hz hm ⊢
  rw [F32.one_eq] at hm ⊢
  show ¬ F32.lt (F32.finite false (2 ^ 149)) (F32.div z m) = true
  rcases m with ⟨_ | _, b⟩ | ⟨_ | _⟩ | _
  · -- m finite, not negative
    have hb : 2 ^ 149 ≤ b := by simpa [F32.lt] using hm
    have hb0 : b ≠ 0 := by
      have : 0 < 2 ^ 149 := by positivity
      omega
    rcases z with ⟨_ | _, a⟩ | ⟨_ | _⟩ | _
    · have ha : a ≤ b := by simpa [F32.lt] using hz
      have hF : a * 2 ^ 150 / b ≤ 2 ^ 150 :=
        Nat.div_le_of_le_mul (Nat.mul_le_mul_right _ ha)
      obtain ⟨n, hn, hle⟩ := F32.round_le_one (a * 2 ^ 150 / b)
        (decide (a * 2 ^ 150 % b ≠ 0)) hF
      simp only [F32.div, if_neg hb0, Bool.xor_false, hn, F32.lt, decide_eq_true_eq, not_lt]
      exact hle
    · simp only [F32.div, if_neg hb0, Bool.xor_false]
      rcases F32.round_negative 1 (a * 2 ^ 150 / b) (decide (a * 2 ^ 150 % b ≠ 0)) with
        ⟨n, hn⟩ | hn <;> rw [hn] <;> simp [F32.lt]
    · simp [F32.lt] at hz
    · simp [F32.div, F32.lt]
    · simp [F32.div, F32.lt]
  · simp [F32.lt] at hm
  · rcases z with ⟨_ | _, a⟩ | ⟨_ | _⟩ | _ <;> simp [F32.div, F32.lt]
  · simp [F32.lt] at hm
  · rcases z with ⟨_ | _, a⟩ | ⟨_ | _⟩ | _ <;> simp [F32.div, F32.lt]

/-- C6 as stated fails: in exact arithmetic and in the program alike, a single
particle of heading `(1,0)` and speed `1/2` keeps the speed `1/2` (`max` stays at
its floor 1), so the largest speed is not 1. In binary32 moreover, a particle
stored with velocity `(2^-100,0,5)` ends with speed 0, the guard of `normalize2`
firing on the underflowed `magnitude2`, and a particle stored with velocity
`(1,0,+inf)` ends with speed NaN, which is `inf / inf`. -/
theorem largest_speed_counterexample :
    (loadNormalize exact
      ⟨false, ⟨0, 0⟩, [(⟨⟨0, 0⟩, ⟨1, 0, 1 / 2⟩, ⟨0, 0, 0, 0⟩, 1, 1⟩ : Particle ℝ)], []⟩).particles
      = [⟨⟨0, 0⟩, ⟨1, 0, 1 / 2⟩, ⟨0, 0, 0, 0⟩, 1, 1⟩] ∧
    (1 / 2 : ℝ) ≠ 1 ∧
    (loadNormalize (binary32 (fun _ _ => F32.nan) (fun _ => F32.nan) (fun _ => F32.nan))
      ⟨false, ⟨0, 0⟩,
        [⟨⟨0, 0⟩, ⟨F32.units false 1 49, 0, F32.ofNat 5⟩, ⟨0, 0, 0, 0⟩, 1, 1⟩], []⟩).particles
      = [⟨⟨0, 0⟩, ⟨0, 0, 0⟩, ⟨0, 0, 0, 0⟩, 1, 1⟩] ∧
    (loadNormalize (binary32 (fun _ _ => F32.nan) (fun _ => F32.nan) (fun _ => F32.nan))
      ⟨false, ⟨0, 0⟩,
        [⟨⟨0, 0⟩, ⟨1, 0, F32.inf false⟩, ⟨0, 0, 0, 0⟩, 1, 1⟩], []⟩).particles
      = [⟨⟨0, 0⟩, ⟨1, 0, F32.nan⟩, ⟨0, 0, 0, 0⟩, 1, 1⟩] := by
  refine ⟨?_, ?_, by decide, by decide⟩
  · rw [loadNormalize_particles]
    have h : magnitude2 exact (⟨1, 0, 1 / 2⟩ : Vector3 ℝ) = 1 := by
      rw [magnitude2_exact]
      norm_num
    have hn : normalize2 exact (⟨1, 0, 1 / 2⟩ : Vector3 ℝ) = ⟨1, 0, 1 / 2⟩ := by
      rw [normalize2_of_ne _ (by rw [h]; exact one_ne_zero), h]
      norm_num
    have hp : peakSpeed (List.filter hasHeading
        [(⟨⟨0, 0⟩, ⟨1, 0, 1 / 2⟩, ⟨0, 0, 0, 0⟩, 1, 1⟩ : Particle ℝ)]) = 1 := by
      rw [List.filter_cons_of_pos (by simp [hasHeading]), List.filter_nil]
      exact max_eq_right (by norm_num)
    simp only [List.map_cons, List.map_nil, hn, hp, div_one]
  · norm_num


/-- C6, amended. Speed normalisation, for every arithmetic whose `<` is
transitive and irreflexive with `0 < 1` and whose division keeps `z / m` from
exceeding 1 when `z` does not exceed `m` and `m` is not below 1: after the
load-time normalisation no speed `z` exceeds 1; and when some particle that the
guard of `normalize2` lets through has a raw speed of at least 1, and `max / max`
is 1 (as it is for every finite `max`), some particle has speed exactly 1, so
that the largest speed is 1. -/
theorem largest_speed_is_one {R : Type} [Zero R] [One R] [Add R] [Mul R] [Div R]
    [BEq R] [LT R] [DecidableRel (fun a b : R => a < b)] (L : Libm R)
    (htrans : ∀ a b c : R, a < b → b < c → a < c) (hirr : ∀ a : R, ¬ a < a)
    (h01 : (0 : R) < 1)
    (hdiv : ∀ z m : R, ¬ m < z → ¬ m < 1 → ¬ 1 < z / m) (scene : Scene R) :
    (∀ q ∈ (loadNormalize L scene).particles, ¬ 1 < q.velocity.z) ∧
    ((∃ p ∈ scene.particles, counted L p = true ∧ (1 < p.velocity.z ∨ p.velocity.z = 1)) →
      (loadNormalize L scene).max / (loadNormalize L scene).max = 1 →
      ∃ q ∈ (loadNormalize L scene).particles, q.velocity.z = 1) := by
  obtain ⟨h1, h2, h3⟩ := loadNormalize_max_spec L htrans hirr h01 scene
  rw [loadNormalize_particles_eq]
  constructor
  · intro q hq
    obtain ⟨p, hp, rfl⟩ := List.mem_map.1 hq
    exact hdiv _ _ (h2 p hp) h1
  · rintro ⟨p, hp, hc, hz⟩ hself
    have key : ∃ r ∈ scene.particles, counted L r = true ∧
        r.velocity.z = (loadNormalize L scene).max := by
      rcases h3 with e | h
      · refine ⟨p, hp, hc, ?_⟩
        rcases hz with hlt | heq
        · have hb := h2 p hp
          rw [normalize2_speed, if_neg (by simpa [counted] using hc), e] at hb
          exact absurd hlt hb
        · rw [heq, e]
      · exact h
    obtain ⟨r, hr, hrc, hrz⟩ := key
    refine ⟨_, List.mem_map.2 ⟨r, hr, rfl⟩, ?_⟩
    show (normalize2 L r.velocity).z / (loadNormalize L scene).max = 1
    rw [normalize2_speed, if_neg (by simpa [counted] using hrc), hrz]
    exact hself

/-- C6 at a concrete scene in binary32: speeds 4.5 and 2 become 1 and 0.444444448. -/
theorem largest_speed_is_one_witness :
    (loadNormalize (binary32 (fun _ _ => F32.nan) (fun _ => F32.nan) (fun _ => F32.nan))
      ⟨false, ⟨0, 0⟩, [⟨⟨0, 0⟩, ⟨1, 0, F32.units false 9 148⟩, ⟨0, 0, 0, 0⟩, 1, 1⟩,
        ⟨⟨0, 0⟩, ⟨0, 1, 2⟩, ⟨0, 0, 0, 0⟩, 1, 1⟩], []⟩).particles.map (fun q => q.velocity.z) =
      [1, F32.units false 14913081 124] ∧
    ∃ q ∈ (loadNormalize (binary32 (fun _ _ => F32.nan) (fun _ => F32.nan) (fun _ => F32.nan))
      ⟨false, ⟨0, 0⟩, [⟨⟨0, 0⟩, ⟨1, 0, F32.units false 9 148⟩, ⟨0, 0, 0, 0⟩, 1, 1⟩,
        ⟨⟨0, 0⟩, ⟨0, 1, 2⟩, ⟨0, 0, 0, 0⟩, 1, 1⟩], []⟩).particles, q.velocity.z = 1 :=
  ⟨by decide,
   (largest_speed_is_one (binary32 (fun _ _ => F32.nan) (fun _ => F32.nan) (fun _ => F32.nan))
      F32.lt_trans F32.lt_irrefl F32.zero_lt_one F32.div_le_one
      ⟨false, ⟨0, 0⟩, [⟨⟨0, 0⟩, ⟨1, 0, F32.units false 9 148⟩, ⟨0, 0, 0, 0⟩, 1, 1⟩,
        ⟨⟨0, 0⟩, ⟨0, 1, 2⟩, ⟨0, 0, 0, 0⟩, 1, 1⟩], []⟩).2
      ⟨_, List.mem_cons_self _ _, by decide, Or.inl (by decide)⟩ (by decide)⟩

/-! ## C2, C10: reflection -/

theorem exact_atan2f (y x : ℝ) : exact.atan2f y x = Complex.arg ⟨x, y⟩ := rfl

theorem abs_mk (x y : ℝ) : Complex.abs ⟨x, y⟩ = Real.sqrt (x * x + y * y) := by
  rw [Complex.abs_apply, Complex.normSq_apply]

/-- The angle of a vector is the angle of its `normalize`. -/
theorem arg_normalize (u : Vector2 ℝ) :
    Complex.arg ⟨(normalize exact u).x, (normalize exact u).y⟩ = Complex.arg ⟨u.x, u.y⟩ := by
  by_cases h : magnitude exact u = 0
  · have hu := (magnitude_eq_zero_iff u).1 h
    rw [normalize_of_eq u h, hu.1, hu.2]
  · rw [normalize_of_ne u h]
    have hpos : 0 < (magnitude exact u)⁻¹ := by
      have : 0 ≤ magnitude exact u := Real.sqrt_nonneg _
      exact inv_pos.2 (lt_of_le_of_ne this (Ne.symm h))
    have he : (⟨u.x / magnitude exact u, u.y / magnitude exact u⟩ : ℂ) =
        (((magnitude exact u)⁻¹ : ℝ) : ℂ) * ⟨u.x, u.y⟩ := by
      apply Complex.ext
      · simp only [Complex.re_ofReal_mul, div_eq_inv_mul]
      · simp only [Complex.im_ofReal_mul, div_eq_inv_mul]
    show Complex.arg ⟨u.x / magnitude exact u, u.y / magnitude exact u⟩ = _
    rw [he, Complex.arg_real_mul _ hpos]

/-- The velocity after a reflection: the unit vector at angle
`2 * surfaceAngle - headingAngle`, with the speed kept. -/
theorem reflected_exact (v : Vector3 ℝ) (s : Surface ℝ) :
    reflected exact v s =
      ⟨Real.cos (2 * exact.atan2f (s.p2.y - s.p1.y) (s.p2.x - s.p1.x) - exact.atan2f v.y v.x),
       Real.sin (2 * exact.atan2f (s.p2.y - s.p1.y) (s.p2.x - s.p1.x) - exact.atan2f v.y v.x),
       v.z⟩ := by
  have h1 := arg_normalize ⟨s.p2.x - s.p1.x, s.p2.y - s.p1.y⟩
  have h2 := arg_normalize ⟨v.x, v.y⟩
  simp only [reflected, exact_atan2f, h1, h2]
  show Copy v (normalize exact ⟨Real.cos _, Real.sin _⟩) = _
  rw [normalize_cos_sin]
  rfl

/-- Cosine and sine of the angle of a vector other than `(0,0)`. -/
theorem cos_sin_arg (x y : ℝ) (h : Real.sqrt (x * x + y * y) ≠ 0) :
    Real.cos (Complex.arg ⟨x, y⟩) = x / Real.sqrt (x * x + y * y) ∧
    Real.sin (Complex.arg ⟨x, y⟩) = y / Real.sqrt (x * x + y * y) := by
  have hne : (⟨x, y⟩ : ℂ) ≠ 0 := by
    intro h0
    apply h
    rw [sqrt_sq_add_eq_zero_iff]
    exact ⟨congrArg Complex.re h0, congrArg Complex.im h0⟩
  rw [Complex.cos_arg hne, Complex.sin_arg, abs_mk]
  exact ⟨rfl, rfl⟩

theorem cos_reflect (a b : ℝ) :
    Real.cos (2 * a - b) =
      (2 * (Real.cos a * Real.cos a) - 1) * Real.cos b +
        2 * (Real.sin a * Real.cos a) * Real.sin b := by
  rw [Real.cos_sub, Real.cos_two_mul, Real.sin_two_mul]
  ring

theorem sin_reflect (a b : ℝ) :
    Real.sin (2 * a - b) =
      2 * (Real.sin a * Real.cos a) * Real.cos b -
        (2 * (Real.cos a * Real.cos a) - 1) * Real.sin b := by
  rw [Real.sin_sub, Real.cos_two_mul, Real.sin_two_mul]
  ring

/-- Turning a vector around changes the sign of the cosine and sine of its angle. -/
theorem cos_sin_arg_neg (x y : ℝ) :
    Real.cos (Complex.arg ⟨-x, -y⟩) * Real.cos (Complex.arg ⟨-x, -y⟩) =
      Real.cos (Complex.arg ⟨x, y⟩) * Real.cos (Complex.arg ⟨x, y⟩) ∧
    Real.sin (Complex.arg ⟨-x, -y⟩) * Real.cos (Complex.arg ⟨-x, -y⟩) =
      Real.sin (Complex.arg ⟨x, y⟩) * Real.cos (Complex.arg ⟨x, y⟩) := by
  by_cases h : Real.sqrt (x * x + y * y) = 0
  · have h0 := (sqrt_sq_add_eq_zero_iff x y).1 h
    rw [h0.1, h0.2]
    simp
  · have hn : Real.sqrt (-x * -x + -y * -y) ≠ 0 := by
      rw [neg_mul_neg, neg_mul_neg]
      exact h
    have e1 := cos_sin_arg x y h
    have e2 := cos_sin_arg (-x) (-y) hn
    rw [neg_mul_neg, neg_mul_neg] at e2
    rw [e1.1, e1.2, e2.1, e2.2]
    constructor <;> ring

/-- C10. Reflection does not depend on the direction in which a surface was
drawn: in exact arithmetic the velocity the reflection code produces for the
surface `(p1,p2)` is the one it produces for `(p2,p1)`, for every velocity and
all endpoints (distinct or not). -/
theorem reflected_swap (v : Vector3 ℝ) (p1 p2 : Vector2 ℝ) :
    reflected exact v ⟨p1, p2⟩ = reflected exact v ⟨p2, p1⟩ := by
  rw [reflected_exact, reflected_exact]
  simp only [exact_atan2f]
  have hx : p1.x - p2.x = -(p2.x - p1.x) := by ring
  have hy : p1.y - p2.y = -(p2.y - p1.y) := by ring
  have hn := cos_sin_arg_neg (p2.x - p1.x) (p2.y - p1.y)
  rw [hx, hy, cos_reflect, sin_reflect, cos_reflect, sin_reflect, hn.1, hn.2]

theorem arg_wall : Complex.arg ⟨10 - 10, 5 - -5⟩ = Real.pi / 2 := by
  have he : (⟨10 - 10, 5 - -5⟩ : ℂ) = ((10 : ℝ) : ℂ) * Complex.I := by
    apply Complex.ext
    · simp only [Complex.re_ofReal_mul, Complex.I_re]
      norm_num
    · simp only [Complex.im_ofReal_mul, Complex.I_im]
      norm_num
  rw [he, Complex.arg_real_mul _ (by norm_num), Complex.arg_I]

theorem arg_east : Complex.arg ⟨1, 0⟩ = 0 := by
  have he : (⟨1, 0⟩ : ℂ) = 1 := by
    apply Complex.ext <;> simp
  rw [he, Complex.arg_one]

theorem normalize_sqrt_congr {R : Type} [Zero R] [Add R] [Mul R] [Div R] [BEq R]
    (L K : Libm R) (h : L.sqrt = K.sqrt) (v : Vector2 R) : normalize L v = normalize K v := by
  simp only [normalize, magnitude, h]

/-- C2 as stated fails in the program, at its own example. In binary32 the
surface from `(10,-5)` to `(10,5)` has direction `(0,1)` and the heading `(1,0)`
is its own `normalize`. For every `<cmath>` with the correctly rounded `sqrtf` and
with `atan2f(1,0) = 1.57079637` (the `float` nearest to π/2), `atan2f(0,1) = 0`,
and, at `3.14159274` (twice that, the `float` nearest to π), `cosf = -1` and
`sinf = -8.74227766e-08` (the `float` nearest to the sine of that number), the
heading after the hit is `(-1, -8.74227766e-08)`, whose `y` is not 0. -/
theorem reflection_binary32_counterexample :
    F32.units true 6151831 103 ≠ 0 ∧
    ∀ L : Libm F32, L.sqrt = F32.sqrt →
      L.atan2f 1 0 = F32.units false 13176795 126 →
      L.atan2f 0 1 = 0 →
      L.cosf (F32.units false 13176795 127) = F32.neg 1 →
      L.sinf (F32.units false 13176795 127) = F32.units true 6151831 103 →
      heading (collide L (fun _ _ _ _ => true)
          ⟨⟨F32.ofNat 9, 0⟩, ⟨1, 0, F32.ofNat 3⟩, ⟨0, 0, 0, 0⟩, 1, 1⟩
          ⟨⟨F32.ofNat 10, F32.neg (F32.ofNat 5)⟩, ⟨F32.ofNat 10, F32.ofNat 5⟩⟩) =
        ⟨F32.neg 1, F32.units true 6151831 103⟩ := by
  refine ⟨by decide, ?_⟩
  intro L hs h1 h2 h3 h4
  have hB := normalize_sqrt_congr L
    (binary32 (fun _ _ => F32.nan) (fun _ => F32.nan) (fun _ => F32.nan)) hs
  have e1 : normalize (binary32 (fun _ _ => F32.nan) (fun _ => F32.nan) (fun _ => F32.nan))
      ⟨F32.ofNat 10 - F32.ofNat 10, F32.ofNat 5 - F32.neg (F32.ofNat 5)⟩ = ⟨0, 1⟩ := by decide
  have e2 : normalize (binary32 (fun _ _ => F32.nan) (fun _ => F32.nan) (fun _ => F32.nan))
      ⟨1, 0⟩ = ⟨1, 0⟩ := by decide
  have e3 : (2 : F32) * F32.units false 13176795 126 - 0 = F32.units false 13176795 127 := by
    decide
  have e4 : normalize (binary32 (fun _ _ => F32.nan) (fun _ => F32.nan) (fun _ => F32.nan))
      ⟨F32.neg 1, F32.units true 6151831 103⟩ = ⟨F32.neg 1, F32.units true 6151831 103⟩ := by
    decide
  simp only [collide, reflected, heading, Copy, if_true, hB, e1, e2, h1, h2, e3, h3, h4, e4]

/-- C2, amended. Reflection on a hit, in exact arithmetic: when the collision test reports
a hit on a surface with distinct endpoints, the loop body sets the heading to the
unit vector at angle `2 * surfaceAngle - headingAngle` (`surfaceAngle` the
`atan2f` of `p2 - p1`, `headingAngle` the `atan2f` of the heading) and keeps the
speed `z`; for a heading other than `(0,0)` this is the mirror image
`2 (u . d) d - u` of the unit heading `u` across the unit direction `d` of the
surface; and heading `(1,0)` on the surface from `(10,-5)` to `(10,5)` becomes
`(-1,0)`. -/
theorem reflection_on_hit (hit : Vector2 ℝ → ℝ → Vector2 ℝ → Vector2 ℝ → Bool)
    (p : Particle ℝ) (s : Surface ℝ) (hne : s.p1 ≠ s.p2)
    (hhit : hit p.position p.r s.p1 s.p2 = true) :
    (collide exact hit p s).velocity =
      ⟨Real.cos (2 * exact.atan2f (s.p2.y - s.p1.y) (s.p2.x - s.p1.x) -
          exact.atan2f p.velocity.y p.velocity.x),
       Real.sin (2 * exact.atan2f (s.p2.y - s.p1.y) (s.p2.x - s.p1.x) -
          exact.atan2f p.velocity.y p.velocity.x),
       p.velocity.z⟩ ∧
    ((p.velocity.x ≠ 0 ∨ p.velocity.y ≠ 0) →
      heading (collide exact hit p s) =
        ⟨2 * ((normalize exact (heading p)).x *
                (normalize exact ⟨s.p2.x - s.p1.x, s.p2.y - s.p1.y⟩).x +
              (normalize exact (heading p)).y *
                (normalize exact ⟨s.p2.x - s.p1.x, s.p2.y - s.p1.y⟩).y) *
            (normalize exact ⟨s.p2.x - s.p1.x, s.p2.y - s.p1.y⟩).x -
          (normalize exact (heading p)).x,
         2 * ((normalize exact (heading p)).x *
                (normalize exact ⟨s.p2.x - s.p1.x, s.p2.y - s.p1.y⟩).x +
              (normalize exact (heading p)).y *
                (normalize exact ⟨s.p2.x - s.p1.x, s.p2.y - s.p1.y⟩).y) *
            (normalize exact ⟨s.p2.x - s.p1.x, s.p2.y - s.p1.y⟩).y -
          (normalize exact (heading p)).y⟩) ∧
    (heading p = ⟨1, 0⟩ → s = ⟨⟨10, -5⟩, ⟨10, 5⟩⟩ →
      heading (collide exact hit p s) = ⟨-1, 0⟩) := by
  have hv : (collide exact hit p s).velocity = reflected exact p.velocity s := by
    simp only [collide, hhit, if_true]
  rw [heading, hv, reflected_exact]
  refine ⟨rfl, ?_, ?_⟩
  · intro hh
    have hd : magnitude exact ⟨s.p2.x - s.p1.x, s.p2.y - s.p1.y⟩ ≠ 0 := by
      rw [Ne, magnitude_eq_zero_iff]
      rintro ⟨h1, h2⟩
      apply hne
      simp only at h1 h2
      have e1 : s.p1.x = s.p2.x := by linarith
      have e2 : s.p1.y = s.p2.y := by linarith
      cases hp1 : s.p1
      cases hp2 : s.p2
      simp_all
    have hu : magnitude exact (heading p) ≠ 0 := by
      rw [Ne, magnitude_eq_zero_iff]
      simp only [heading]
      tauto
    have cd := cos_sin_arg (s.p2.x - s.p1.x) (s.p2.y - s.p1.y) hd
    have cu := cos_sin_arg p.velocity.x p.velocity.y hu
    have hunit := sqrt_div_self_sq (s.p2.x - s.p1.x) (s.p2.y - s.p1.y) hd
    rw [Real.sqrt_eq_one] at hunit
    rw [normalize_of_ne _ hd, normalize_of_ne _ hu]
    simp only [exact_atan2f, cos_reflect, sin_reflect, cd.1, cd.2, cu.1, cu.2, heading,
      magnitude_exact] at hunit ⊢
    generalize (s.p2.x - s.p1.x) / Real.sqrt _ = dx at hunit ⊢
    generalize (s.p2.y - s.p1.y) / Real.sqrt _ = dy at hunit ⊢
    generalize p.velocity.x / Real.sqrt _ = ux
    generalize p.velocity.y / Real.sqrt _ = uy
    congr 1
    · ring
    · linear_combination (-2 * uy) * hunit
  · intro hh hs
    have h1 : p.velocity.x = 1 := congrArg Vector2.x hh
    have h2 : p.velocity.y = 0 := congrArg Vector2.y hh
    subst hs
    simp only [exact_atan2f, h1, h2, arg_wall, arg_east]
    have : 2 * (Real.pi / 2) - 0 = Real.pi := by ring
    rw [this, Real.cos_pi, Real.sin_pi]

/-- C2 at the concrete input of the claim: a particle heading `(1,0)` at speed 3
that hits the wall from `(10,-5)` to `(10,5)` leaves with velocity `(-1,0,3)`. -/
theorem reflection_on_hit_witness :
    (collide exact (fun _ _ _ _ => true)
        ⟨⟨9, 0⟩, ⟨1, 0, 3⟩, ⟨0, 0, 0, 0⟩, 1, 1⟩ ⟨⟨10, -5⟩, ⟨10, 5⟩⟩).velocity.z = 3 ∧
    heading (collide exact (fun _ _ _ _ => true)
        ⟨⟨9, 0⟩, ⟨1, 0, 3⟩, ⟨0, 0, 0, 0⟩, 1, 1⟩ ⟨⟨10, -5⟩, ⟨10, 5⟩⟩) = ⟨-1, 0⟩ :=
  have h := reflection_on_hit (fun _ _ _ _ => true)
    ⟨⟨9, 0⟩, ⟨1, 0, 3⟩, ⟨0, 0, 0, 0⟩, 1, 1⟩ ⟨⟨10, -5⟩, ⟨10, 5⟩⟩
    (by intro h; have := congrArg Vector2.y h; norm_num at this) rfl
  ⟨by rw [h.1], h.2.2 rfl rfl⟩

/-! ## C8: the unit heading -/

theorem heading_collide_unit (hit : Vector2 ℝ → ℝ → Vector2 ℝ → Vector2 ℝ → Bool)
    (p : Particle ℝ) (s : Surface ℝ) (h : magnitude exact (heading p) = 1) :
    magnitude exact (heading (collide exact hit p s)) = 1 := by
  unfold collide
  split
  · simp only [heading, reflected_exact]
    exact magnitude_cos_sin _
  · exact h

theorem heading_foldl_collide_unit (hit : Vector2 ℝ → ℝ → Vector2 ℝ → Vector2 ℝ → Bool)
    (ss : List (Surface ℝ)) (p : Particle ℝ) (h : magnitude exact (heading p) = 1) :
    magnitude exact (heading (ss.foldl (collide exact hit) p)) = 1 := by
  induction ss generalizing p with
  | nil => exact h
  | cons s ss ih =>
    rw [List.foldl_cons]
    exact ih _ (heading_collide_unit hit p s h)

/-- A frame step leaves a heading of magnitude 1 when heading + drift is not `(0,0)`. -/
theorem heading_stepParticle_unit (hit : Vector2 ℝ → ℝ → Vector2 ℝ → Vector2 ℝ → Bool)
    (drift : Vector2 ℝ) (ss : List (Surface ℝ)) (p : Particle ℝ)
    (h : p.velocity.x + drift.x ≠ 0 ∨ p.velocity.y + drift.y ≠ 0) :
    magnitude exact (heading (stepParticle exact hit drift ss p)) = 1 := by
  apply heading_foldl_collide_unit
  show magnitude exact (normalize exact ⟨p.velocity.x + drift.x, p.velocity.y + drift.y⟩) = 1
  apply magnitude_normalize
  rw [Ne, magnitude_eq_zero_iff]
  tauto

/-- A vector of magnitude 1 plus a vector of another magnitude is not `(0,0)`. -/
theorem unit_add_ne_zero (h d : Vector2 ℝ) (hh : magnitude exact h = 1)
    (hd : magnitude exact d ≠ 1) : h.x + d.x ≠ 0 ∨ h.y + d.y ≠ 0 := by
  by_contra hc
  push_neg at hc
  apply hd
  have hx : d.x = -h.x := by linarith [hc.1]
  have hy : d.y = -h.y := by linarith [hc.2]
  rw [magnitude_exact, hx, hy, neg_mul_neg, neg_mul_neg, ← magnitude_exact, hh]

/-- After the load-time normalisation, a stored heading other than `(0,0)` has magnitude 1. -/
theorem heading_loadNormalize_unit (scene : Scene ℝ)
    (hs : ∀ p ∈ scene.particles, p.velocity.x ≠ 0 ∨ p.velocity.y ≠ 0) :
    ∀ q ∈ (loadNormalize exact scene).particles, magnitude exact (heading q) = 1 := by
  intro q hq
  rw [loadNormalize_particles] at hq
  obtain ⟨p, hp, rfl⟩ := List.mem_map.1 hq
  have hm : magnitude2 exact p.velocity ≠ 0 := by
    rw [Ne, magnitude2_eq_zero_iff]
    have := hs p hp
    tauto
  exact magnitude2_normalize2 p.velocity hm

/-- C8 as stated fails, in both halves: a particle stored with velocity `(0,0,1)`
has heading `(0,0)`, of magnitude 0, after the load-time normalisation; and one
frame with drift `(-1,0)` turns the unit heading `(1,0)` into `(0,0)`. -/
theorem unit_heading_counterexample :
    (Simulate exact (fun _ _ _ _ => false)
        ⟨false, ⟨0, 0⟩, [⟨⟨0, 0⟩, ⟨0, 0, 1⟩, ⟨0, 0, 0, 0⟩, 1, 1⟩], []⟩ 0).map
      (fun q => magnitude exact (heading q)) = [0] ∧
    magnitude exact (⟨1, 0⟩ : Vector2 ℝ) = 1 ∧
    heading (stepParticle exact (fun _ _ _ _ => false) ⟨-1, 0⟩ []
      ⟨⟨0, 0⟩, ⟨1, 0, 1⟩, ⟨0, 0, 0, 0⟩, 1, 1⟩) = ⟨0, 0⟩ ∧
    magnitude exact (⟨0, 0⟩ : Vector2 ℝ) = 0 := by
  have hz : normalize2 exact (⟨0, 0, 1⟩ : Vector3 ℝ) = ⟨0, 0, 0⟩ :=
    normalize2_of_eq _ (by simp [magnitude2_exact])
  refine ⟨?_, ?_, ?_, ?_⟩
  · simp only [Simulate]
    rw [loadNormalize_particles]
    simp [hz, heading, magnitude_exact]
  · simp [magnitude_exact]
  · show normalize exact ⟨(1 : ℝ) + -1, 0 + 0⟩ = ⟨0, 0⟩
    exact normalize_of_eq _ (by simp [magnitude_exact])
  · simp [magnitude_exact]

/-- C8, amended. Unit heading in exact arithmetic: in a scene whose particles all
have a stored heading other than `(0,0)`, every heading has magnitude 1 after the
load-time normalisation; a frame step leaves a heading of magnitude 1 whenever
the heading plus the drift is not `(0,0)` before it; hence, when moreover the
magnitude of the drift is not 1, every heading has magnitude 1 after every frame. -/
theorem unit_heading_invariant (hit : Vector2 ℝ → ℝ → Vector2 ℝ → Vector2 ℝ → Bool)
    (scene : Scene ℝ)
    (hs : ∀ p ∈ scene.particles, p.velocity.x ≠ 0 ∨ p.velocity.y ≠ 0) :
    (∀ q ∈ (loadNormalize exact scene).particles, magnitude exact (heading q) = 1) ∧
    (∀ p : Particle ℝ,
      (p.velocity.x + scene.defaultVel.x ≠ 0 ∨ p.velocity.y + scene.defaultVel.y ≠ 0) →
      magnitude exact
        (heading (stepParticle exact hit scene.defaultVel scene.surfaces p)) = 1) ∧
    (magnitude exact scene.defaultVel ≠ 1 →
      ∀ n : Nat, ∀ q ∈ Simulate exact hit scene n, magnitude exact (heading q) = 1) := by
  refine ⟨heading_loadNormalize_unit scene hs, ?_, ?_⟩
  · intro p hp
    exact heading_stepParticle_unit hit _ _ p hp
  · intro hd n
    induction n with
    | zero => exact heading_loadNormalize_unit scene hs
    | succ n ih =>
      intro q hq
      simp only [Simulate, frame] at hq
      obtain ⟨p, hp, rfl⟩ := List.mem_map.1 hq
      exact heading_stepParticle_unit hit _ _ p
        (unit_add_ne_zero (heading p) scene.defaultVel (ih p hp) hd)

/-- C8 at a concrete scene: heading `(3,4)`, no drift, a wall that is always hit,
two frames. -/
theorem unit_heading_invariant_witness :
    (∀ p ∈ [(⟨⟨0, 0⟩, ⟨3, 4, 2⟩, ⟨0, 0, 0, 0⟩, 1, 1⟩ : Particle ℝ)],
      p.velocity.x ≠ 0 ∨ p.velocity.y ≠ 0) ∧
    ∀ q ∈ Simulate exact (fun _ _ _ _ => true)
        ⟨false, ⟨0, 0⟩, [⟨⟨0, 0⟩, ⟨3, 4, 2⟩, ⟨0, 0, 0, 0⟩, 1, 1⟩], [⟨⟨10, -5⟩, ⟨10, 5⟩⟩]⟩ 2,
      magnitude exact (heading q) = 1 :=
  have hs : ∀ p ∈ [(⟨⟨0, 0⟩, ⟨3, 4, 2⟩, ⟨0, 0, 0, 0⟩, 1, 1⟩ : Particle ℝ)],
      p.velocity.x ≠ 0 ∨ p.velocity.y ≠ 0 := by
    intro p hp
    rw [List.mem_singleton] at hp
    subst hp
    exact Or.inl (by norm_num)
  ⟨hs, (unit_heading_invariant (fun _ _ _ _ => true)
    ⟨false, ⟨0, 0⟩, [⟨⟨0, 0⟩, ⟨3, 4, 2⟩, ⟨0, 0, 0, 0⟩, 1, 1⟩], [⟨⟨10, -5⟩, ⟨10, 5⟩⟩]⟩ hs).2.2
    (by simp [magnitude_exact]) 2⟩

/-! ## C9: drift convergence -/

theorem foldl_collide_no_hit (hit : Vector2 ℝ → ℝ → Vector2 ℝ → Vector2 ℝ → Bool)
    (ss : List (Surface ℝ)) (p : Particle ℝ)
    (hno : ∀ s ∈ ss, hit p.position p.r s.p1 s.p2 = false) :
    ss.foldl (collide exact hit) p = p := by
  induction ss with
  | nil => rfl
  | cons s ss ih =>
    rw [List.foldl_cons]
    have : collide exact hit p s = p := by
      simp [collide, hno s (List.mem_cons_self _ _)]
    rw [this]
    exact ih (fun t ht => hno t (List.mem_cons_of_mem _ ht))

/-- With drift `(1,0)` and no surface hit in the frame, a frame halves the angle
of the heading. -/
theorem heading_halved (hit : Vector2 ℝ → ℝ → Vector2 ℝ → Vector2 ℝ → Bool)
    (ss : List (Surface ℝ)) (p : Particle ℝ)
    (hno : ∀ s ∈ ss, hit (advance p).position p.r s.p1 s.p2 = false)
    (t : ℝ) (ht : 0 < Real.cos t) (hp : heading p = ⟨Real.cos (2 * t), Real.sin (2 * t)⟩) :
    heading (stepParticle exact hit ⟨1, 0⟩ ss p) = ⟨Real.cos t, Real.sin t⟩ := by
  have hx : p.velocity.x = Real.cos (2 * t) := congrArg Vector2.x hp
  have hy : p.velocity.y = Real.sin (2 * t) := congrArg Vector2.y hp
  rw [stepParticle, foldl_collide_no_hit hit ss (applyDrift exact ⟨1, 0⟩ (advance p)) hno]
  show normalize exact ⟨p.velocity.x + 1, p.velocity.y + 0⟩ = _
  have hm : magnitude exact ⟨p.velocity.x + 1, p.velocity.y + 0⟩ = 2 * Real.cos t := by
    rw [magnitude_exact, hx, hy, Real.cos_two_mul, Real.sin_two_mul]
    have e : (2 * Real.cos t ^ 2 - 1 + 1) * (2 * Real.cos t ^ 2 - 1 + 1) +
        (2 * Real.sin t * Real.cos t + 0) * (2 * Real.sin t * Real.cos t + 0) =
        (2 * Real.cos t) * (2 * Real.cos t) := by
      have := Real.sin_sq_add_cos_sq t
      have hs : Real.sin t ^ 2 = 1 - Real.cos t ^ 2 := by linarith
      ring_nf
      rw [hs]
      ring
    rw [e, Real.sqrt_mul_self (by linarith)]
  have hne : magnitude exact ⟨p.velocity.x + 1, p.velocity.y + 0⟩ ≠ 0 := by
    rw [hm]
    exact ne_of_gt (by linarith)
  rw [normalize_of_ne _ hne, hm, hx, hy, Real.cos_two_mul, Real.sin_two_mul]
  have hc : Real.cos t ≠ 0 := ne_of_gt ht
  congr 1
  · field_simp
    ring
  · field_simp
    ring

theorem angle_bounds (n : Nat) :
    0 < Real.pi / 2 ^ (n + 1) ∧ Real.pi / 2 ^ (n + 1) ≤ Real.pi / 2 := by
  have hpi := Real.pi_pos
  have h2 : (2 : ℝ) ≤ 2 ^ (n + 1) := by
    have : (2 : ℝ) ^ 1 ≤ 2 ^ (n + 1) := pow_le_pow_right₀ (by norm_num) (by omega)
    simpa using this
  refine ⟨by positivity, ?_⟩
  exact div_le_div_of_nonneg_left (le_of_lt hpi) (by norm_num) h2

theorem angle_strictAnti : StrictAnti (fun n : Nat => Real.pi / 2 ^ (n + 1)) := by
  intro a b hab
  have hpi := Real.pi_pos
  have h : (2 : ℝ) ^ (a + 1) < 2 ^ (b + 1) :=
    pow_lt_pow_right₀ (by norm_num) (by omega)
  exact div_lt_div_of_pos_left hpi (by positivity) h

theorem angle_tendsto :
    Filter.Tendsto (fun n : Nat => Real.pi / 2 ^ (n + 1)) Filter.atTop (nhds 0) := by
  have h : Filter.Tendsto (fun n : Nat => ((1 : ℝ) / 2) ^ n) Filter.atTop (nhds 0) :=
    tendsto_pow_atTop_nhds_zero_of_lt_one (by norm_num) (by norm_num)
  have h2 := h.const_mul (Real.pi / 2)
  rw [mul_zero] at h2
  refine h2.congr (fun n => ?_)
  ring_nf

/-- The heading after `n` frames with drift `(1,0)`, no surface hit, from heading `(0,1)`. -/
theorem heading_iterate (hit : Vector2 ℝ → ℝ → Vector2 ℝ → Vector2 ℝ → Bool)
    (ss : List (Surface ℝ)) (p : Particle ℝ)
    (hno : ∀ n : Nat, ∀ s ∈ ss,
      hit (advance ((stepParticle exact hit ⟨1, 0⟩ ss)^[n] p)).position
        ((stepParticle exact hit ⟨1, 0⟩ ss)^[n] p).r s.p1 s.p2 = false)
    (hp : heading p = ⟨0, 1⟩) (n : Nat) :
    heading ((stepParticle exact hit ⟨1, 0⟩ ss)^[n] p) =
      ⟨Real.cos (Real.pi / 2 ^ (n + 1)), Real.sin (Real.pi / 2 ^ (n + 1))⟩ := by
  induction n with
  | zero =>
    rw [Function.iterate_zero, id, hp]
    norm_num
  | succ n ih =>
    rw [Function.iterate_succ_apply']
    have hb := angle_bounds (n + 1)
    apply heading_halved hit ss _ (hno n) _
      (Real.cos_pos_of_mem_Ioo ⟨by linarith [Real.pi_pos], by
        have := angle_strictAnti (show n < n + 1 by omega)
        have h0 := (angle_bounds n).2
        simp only at this
        linarith⟩)
    rw [ih]
    have e : 2 * (Real.pi / 2 ^ (n + 1 + 1)) = Real.pi / 2 ^ (n + 1) := by
      rw [pow_succ 2 (n + 1)]
      field_simp
      ring
    rw [e]

/-- C9 as stated fails in the program: in binary32, with drift `(1,0)`, no
surface in the scene and heading `(0,1)` at the start, the `x` of the heading is
exactly 1 after frame 13 and exactly 1 again after frame 14, so it does not
strictly increase with `n`. -/
theorem drift_binary32_counterexample :
    heading ((stepParticle (binary32 (fun _ _ => F32.nan) (fun _ => F32.nan) (fun _ => F32.nan))
      (fun _ _ _ _ => false) ⟨1, 0⟩ [])^[13] ⟨⟨0, 0⟩, ⟨0, 1, 1⟩, ⟨0, 0, 0, 0⟩, 1, 1⟩) =
      ⟨1, F32.units false 13176795 113⟩ ∧
    heading ((stepParticle (binary32 (fun _ _ => F32.nan) (fun _ => F32.nan) (fun _ => F32.nan))
      (fun _ _ _ _ => false) ⟨1, 0⟩ [])^[14] ⟨⟨0, 0⟩, ⟨0, 1, 1⟩, ⟨0, 0, 0, 0⟩, 1, 1⟩) =
      ⟨1, F32.units false 13176795 112⟩ := by
  refine ⟨by decide, by decide⟩

/-- C9, amended. Drift convergence in exact arithmetic: with drift `(1,0)`, no
surface reported as hit in any frame, and a particle whose heading starts at
`(0,1)`, the heading after `n` frames is `(cos (π / 2^(n+1)), sin (π / 2^(n+1)))`;
its `x` strictly increases with `n`, its `y` is positive and strictly decreases,
and the heading tends to `(1,0)`. -/
theorem drift_convergence (hit : Vector2 ℝ → ℝ → Vector2 ℝ → Vector2 ℝ → Bool)
    (ss : List (Surface ℝ)) (p : Particle ℝ)
    (hno : ∀ n : Nat, ∀ s ∈ ss,
      hit (advance ((stepParticle exact hit ⟨1, 0⟩ ss)^[n] p)).position
        ((stepParticle exact hit ⟨1, 0⟩ ss)^[n] p).r s.p1 s.p2 = false)
    (hp : heading p = ⟨0, 1⟩) :
    (∀ n : Nat, heading ((stepParticle exact hit ⟨1, 0⟩ ss)^[n] p) =
      ⟨Real.cos (Real.pi / 2 ^ (n + 1)), Real.sin (Real.pi / 2 ^ (n + 1))⟩) ∧
    StrictMono (fun n : Nat => (heading ((stepParticle exact hit ⟨1, 0⟩ ss)^[n] p)).x) ∧
    (∀ n : Nat, 0 < (heading ((stepParticle exact hit ⟨1, 0⟩ ss)^[n] p)).y) ∧
    StrictAnti (fun n : Nat => (heading ((stepParticle exact hit ⟨1, 0⟩ ss)^[n] p)).y) ∧
    Filter.Tendsto (fun n : Nat => (heading ((stepParticle exact hit ⟨1, 0⟩ ss)^[n] p)).x)
      Filter.atTop (nhds 1) ∧
    Filter.Tendsto (fun n : Nat => (heading ((stepParticle exact hit ⟨1, 0⟩ ss)^[n] p)).y)
      Filter.atTop (nhds 0) := by
  have hit_n := heading_iterate hit ss p hno hp
  have hpi := Real.pi_pos
  have hIcc : ∀ n : Nat, Real.pi / 2 ^ (n + 1) ∈ Set.Icc (0 : ℝ) Real.pi := fun n =>
    ⟨le_of_lt (angle_bounds n).1, by linarith [(angle_bounds n).2]⟩
  have hIcc2 : ∀ n : Nat, Real.pi / 2 ^ (n + 1) ∈ Set.Icc (-(Real.pi / 2)) (Real.pi / 2) :=
    fun n => ⟨by linarith [(angle_bounds n).1], (angle_bounds n).2⟩
  refine ⟨hit_n, ?_, ?_, ?_, ?_, ?_⟩
  · intro a b hab
    simp only [hit_n]
    exact Real.strictAntiOn_cos (hIcc b) (hIcc a) (angle_strictAnti hab)
  · intro n
    rw [hit_n]
    exact Real.sin_pos_of_pos_of_lt_pi (angle_bounds n).1 (by linarith [(angle_bounds n).2])
  · intro a b hab
    simp only [hit_n]
    exact Real.strictMonoOn_sin (hIcc2 b) (hIcc2 a) (angle_strictAnti hab)
  · simp only [hit_n]
    have h := (Real.continuous_cos.tendsto 0).comp angle_tendsto
    rw [Real.cos_zero] at h
    exact h
  · simp only [hit_n]
    have h := (Real.continuous_sin.tendsto 0).comp angle_tendsto
    rw [Real.sin_zero] at h
    exact h

/-- A circle of radius 1 centred on or above the `x` axis does not reach the
segment from `(-5,-10)` to `(5,-10)`. -/
theorem circleHitsSegment_below (c : Vector2 ℝ) (hc : 0 ≤ c.y) :
    circleHitsSegment c 1 ⟨-5, -10⟩ ⟨5, -10⟩ = false := by
  simp only [circleHitsSegment, decide_eq_false_iff_not, not_le]
  generalize max 0 (min 1 (((c.x - -5) * (5 - -5) + (c.y - -10) * (-10 - -10)) /
    ((5 - -5) * (5 - -5) + (-10 - -10) * (-10 - -10)))) = t
  nlinarith [mul_self_nonneg (-5 + t * (5 - -5) - c.x), mul_self_nonneg c.y]

/-- The run of the particle that starts at the origin with heading `(0,1)` and
speed 1, with drift `(1,0)` and the segment from `(-5,-10)` to `(5,-10)` in the
scene: it stays on or above the `x` axis, so the segment is never hit. -/
theorem drift_run_above (n : Nat) :
    0 ≤ ((stepParticle exact circleHitsSegment ⟨1, 0⟩ [⟨⟨-5, -10⟩, ⟨5, -10⟩⟩])^[n]
        ⟨⟨0, 0⟩, ⟨0, 1, 1⟩, ⟨0, 0, 0, 0⟩, 1, 1⟩).position.y ∧
    ((stepParticle exact circleHitsSegment ⟨1, 0⟩ [⟨⟨-5, -10⟩, ⟨5, -10⟩⟩])^[n]
        ⟨⟨0, 0⟩, ⟨0, 1, 1⟩, ⟨0, 0, 0, 0⟩, 1, 1⟩).r = 1 ∧
    ((stepParticle exact circleHitsSegment ⟨1, 0⟩ [⟨⟨-5, -10⟩, ⟨5, -10⟩⟩])^[n]
        ⟨⟨0, 0⟩, ⟨0, 1, 1⟩, ⟨0, 0, 0, 0⟩, 1, 1⟩).velocity.z = 1 ∧
    heading ((stepParticle exact circleHitsSegment ⟨1, 0⟩ [⟨⟨-5, -10⟩, ⟨5, -10⟩⟩])^[n]
        ⟨⟨0, 0⟩, ⟨0, 1, 1⟩, ⟨0, 0, 0, 0⟩, 1, 1⟩) =
      ⟨Real.cos (Real.pi / 2 ^ (n + 1)), Real.sin (Real.pi / 2 ^ (n + 1))⟩ := by
  induction n with
  | zero =>
    refine ⟨le_refl _, rfl, rfl, ?_⟩
    rw [Function.iterate_zero, id, heading]
    norm_num
  | succ n ih =>
    obtain ⟨hy, hr, hz, hh⟩ := ih
    rw [Function.iterate_succ_apply']
    generalize (stepParticle exact circleHitsSegment ⟨1, 0⟩ [⟨⟨-5, -10⟩, ⟨5, -10⟩⟩])^[n]
      ⟨⟨0, 0⟩, ⟨0, 1, 1⟩, ⟨0, 0, 0, 0⟩, 1, 1⟩ = q at hy hr hz hh
    have hvy : q.velocity.y = Real.sin (Real.pi / 2 ^ (n + 1)) := congrArg Vector2.y hh
    have hsin : 0 < Real.sin (Real.pi / 2 ^ (n + 1)) :=
      Real.sin_pos_of_pos_of_lt_pi (angle_bounds n).1
        (by linarith [(angle_bounds n).2, Real.pi_pos])
    have hpos : 0 ≤ (advance q).position.y := by
      show 0 ≤ q.position.y + q.velocity.y * q.velocity.z
      rw [hvy, hz, mul_one]
      linarith
    have hno : ∀ s ∈ [(⟨⟨-5, -10⟩, ⟨5, -10⟩⟩ : Surface ℝ)],
        circleHitsSegment (advance q).position q.r s.p1 s.p2 = false := by
      intro s hs
      rw [List.mem_singleton] at hs
      subst hs
      rw [hr]
      exact circleHitsSegment_below _ hpos
    have hstep : stepParticle exact circleHitsSegment ⟨1, 0⟩ [⟨⟨-5, -10⟩, ⟨5, -10⟩⟩] q =
        applyDrift exact ⟨1, 0⟩ (advance q) :=
      foldl_collide_no_hit circleHitsSegment _ (applyDrift exact ⟨1, 0⟩ (advance q)) hno
    refine ⟨?_, ?_, ?_, ?_⟩
    · rw [hstep]
      exact hpos
    · rw [hstep]
      exact hr
    · rw [hstep]
      exact hz
    · have hb := angle_bounds (n + 1)
      apply heading_halved circleHitsSegment _ q hno _
        (Real.cos_pos_of_mem_Ioo ⟨by linarith [Real.pi_pos], by
          have := angle_strictAnti (show n < n + 1 by omega)
          have h0 := (angle_bounds n).2
          simp only at this
          linarith⟩)
      rw [hh]
      have e : 2 * (Real.pi / 2 ^ (n + 1 + 1)) = Real.pi / 2 ^ (n + 1) := by
        rw [pow_succ 2 (n + 1)]
        field_simp
        ring
      rw [e]

/-- C9 at a concrete run: a particle that starts at the origin with speed 1 and
radius 1, a segment from `(-5,-10)` to `(5,-10)` in the scene, and the
circle-against-segment test as the collision test. The particle stays above the
`x` axis, so no frame reports a hit; after one frame the heading is at angle
`π / 4`, and it tends to `(1,0)`. -/
theorem drift_convergence_witness :
    heading ((stepParticle exact circleHitsSegment ⟨1, 0⟩ [⟨⟨-5, -10⟩, ⟨5, -10⟩⟩])^[1]
        ⟨⟨0, 0⟩, ⟨0, 1, 1⟩, ⟨0, 0, 0, 0⟩, 1, 1⟩) =
      ⟨Real.cos (Real.pi / 2 ^ (1 + 1)), Real.sin (Real.pi / 2 ^ (1 + 1))⟩ ∧
    Filter.Tendsto (fun n : Nat =>
        (heading ((stepParticle exact circleHitsSegment ⟨1, 0⟩ [⟨⟨-5, -10⟩, ⟨5, -10⟩⟩])^[n]
          ⟨⟨0, 0⟩, ⟨0, 1, 1⟩, ⟨0, 0, 0, 0⟩, 1, 1⟩)).x) Filter.atTop (nhds 1) ∧
    Filter.Tendsto (fun n : Nat =>
        (heading ((stepParticle exact circleHitsSegment ⟨1, 0⟩ [⟨⟨-5, -10⟩, ⟨5, -10⟩⟩])^[n]
          ⟨⟨0, 0⟩, ⟨0, 1, 1⟩, ⟨0, 0, 0, 0⟩, 1, 1⟩)).y) Filter.atTop (nhds 0) :=
  have hno : ∀ n : Nat, ∀ s ∈ [(⟨⟨-5, -10⟩, ⟨5, -10⟩⟩ : Surface ℝ)],
      circleHitsSegment
        (advance ((stepParticle exact circleHitsSegment ⟨1, 0⟩ [⟨⟨-5, -10⟩, ⟨5, -10⟩⟩])^[n]
          ⟨⟨0, 0⟩, ⟨0, 1, 1⟩, ⟨0, 0, 0, 0⟩, 1, 1⟩)).position
        ((stepParticle exact circleHitsSegment ⟨1, 0⟩ [⟨⟨-5, -10⟩, ⟨5, -10⟩⟩])^[n]
          ⟨⟨0, 0⟩, ⟨0, 1, 1⟩, ⟨0, 0, 0, 0⟩, 1, 1⟩).r s.p1 s.p2 = false := by
    intro n s hs
    rw [List.mem_singleton] at hs
    subst hs
    obtain ⟨hy, hr, hz, hh⟩ := drift_run_above n
    rw [hr]
    apply circleHitsSegment_below
    show 0 ≤ _ + _ * _
    have hvy := congrArg Vector2.y hh
    simp only [heading] at hvy
    rw [hvy, hz, mul_one]
    have hsin : 0 < Real.sin (Real.pi / 2 ^ (n + 1)) :=
      Real.sin_pos_of_pos_of_lt_pi (angle_bounds n).1
        (by linarith [(angle_bounds n).2, Real.pi_pos])
    linarith
  have h := drift_convergence circleHitsSegment
    [⟨⟨-5, -10⟩, ⟨5, -10⟩⟩] ⟨⟨0, 0⟩, ⟨0, 1, 1⟩, ⟨0, 0, 0, 0⟩, 1, 1⟩ hno rfl
  ⟨h.1 1, h.2.2.2.2.1, h.2.2.2.2.2⟩

end Optix
